import Mathlib

/-!
Verification development for the Anchor code-intelligence service.

Each Rust function referenced by the specification is translated into an
executable Lean definition (a shallow embedding): strings become `List Char`
or UTF-8 byte lists (`List Nat`), fallible code returns `Option`, a possible
Rust panic is made explicit through the `RunResult` type, and file-system
effects are modelled by explicit maps or operation traces.
-/

namespace Anchor

/-! ## String helpers shared by the embeddings

Rust `str` operations used by the sources, modelled on `List Char`.
Index arithmetic in the Rust sources is in bytes; every index the sources
compute is the position of a one-byte ASCII character, so positions in the
character list coincide with the byte positions on the characters involved
and slicing is faithful.
-/

/-- Rust `str::trim` (both ends, whitespace). -/
def trimChars (l : List Char) : List Char :=
  ((l.dropWhile Char.isWhitespace).reverse.dropWhile Char.isWhitespace).reverse

/-- Rust `str::find(char)`: index of the first occurrence. -/
def findCharIdx (c : Char) (l : List Char) : Option Nat :=
  l.findIdx? (· = c)

/-- Rust `str::rfind(char)`: index of the last occurrence. -/
def rfindCharIdx (c : Char) (l : List Char) : Option Nat :=
  (l.reverse.findIdx? (· = c)).map (fun i => l.length - 1 - i)

/-- Rust slice `&s[a..b]`: `none` models the panic when `a > b` or `b > len`. -/
def sliceChk (l : List Char) (a b : Nat) : Option (List Char) :=
  if a ≤ b ∧ b ≤ l.length then some ((l.take b).drop a) else none

/-- Rust `str::find(&str)`: first index at which `pat` occurs as a substring. -/
def findSubIdx (pat : List Char) : List Char → Option Nat
  | [] => if pat = [] then some 0 else none
  | c :: rest =>
    if pat.isPrefixOf (c :: rest) then some 0
    else (findSubIdx pat rest).map (· + 1)

/-- Rust `str::strip_prefix` composed with `unwrap_or`: drop `pre` if present. -/
def dropPreIf (pre l : List Char) : List Char :=
  if pre.isPrefixOf l then l.drop pre.length else l

/-! ## `Signature` and `Param` (src/query/types.rs) -/

/-- A function parameter (src/query/types.rs, `Param`). -/
structure Param where
  name : String
  typ : String
  deriving DecidableEq, Repr

/-- Parsed function signature (src/query/types.rs, `Signature`). -/
structure Signature where
  name : String
  params : List Param
  return_type : Option String
  deriving DecidableEq, Repr

/-- Result of running Rust code that may panic. -/
inductive RunResult (α : Type) where
  | panicked
  | value (a : α)
  deriving DecidableEq, Repr

/-- Parse one `PARAMS` piece: split at the first `:` into name and type
(src/query/types.rs, body of the `for param in params_str.split(',')` loop). -/
def paramOfPiece (piece : List Char) : Option Param :=
  let p := trimChars piece
  if p.isEmpty then none
  else
    match findCharIdx ':' p with
    | some colonIdx =>
      some { name := (trimChars (p.take colonIdx)).asString
             typ := (trimChars (p.drop (colonIdx + 1))).asString }
    | none => some { name := p.asString, typ := "" }

/-- `Signature::parse` (src/query/types.rs). `RunResult.panicked` models the
slice panic of `&sig[paren_idx + 1..close_paren]` when the last `)` comes
before the first `(`. -/
def Signature.parseRun (s : String) : RunResult (Option Signature) :=
  let sig := trimChars s.toList
  match findCharIdx '(' sig with
  | none => .value none
  | some parenIdx =>
    let namePart := trimChars (sig.take parenIdx)
    let name := (trimChars (dropPreIf "fn ".toList namePart)).asString
    match rfindCharIdx ')' sig with
    | none => .value none
    | some closeParen =>
      match sliceChk sig (parenIdx + 1) closeParen with
      | none => .panicked
      | some paramsStr =>
        let params :=
          if (trimChars paramsStr).isEmpty then []
          else (paramsStr.splitOn ',').filterMap paramOfPiece
        let return_type :=
          if closeParen + 1 < sig.length then
            let afterParen := sig.drop (closeParen + 1)
            (findSubIdx "->".toList afterParen).map
              (fun arrowIdx => (trimChars (afterParen.drop (arrowIdx + 2))).asString)
          else none
        .value (some { name := name, params := params, return_type := return_type })

/-- `Signature::diff` (src/query/types.rs): `(added, removed)` compared by
parameter name; the `HashSet` of names is modelled by list membership. -/
def Signature.diff (old new : Signature) : List Param × List Param :=
  let oldNames := old.params.map Param.name
  let newNames := new.params.map Param.name
  (new.params.filter (fun p => !(oldNames.contains p.name)),
   old.params.filter (fun p => !(newNames.contains p.name)))

/-- The name cleanup `Signature::parse` performs on the text before `(`:
trim, strip a leading `fn `, trim again. -/
def cleanupName (nm : List Char) : String :=
  (trimChars (dropPreIf "fn ".toList (trimChars nm))).asString

/-- The comma split `Signature::parse` actually performs on the text between
the parentheses: every comma separates, regardless of nesting. (The source
first guards on a non-blank parameter text, but a blank text yields only
pieces that trim to empty, which `paramOfPiece` skips, so the guard is
redundant and this description omits it.) -/
def naiveSplitParams (ps : List Char) : List Param :=
  (ps.splitOn ',').filterMap paramOfPiece

/-- Modelled from the spec's words (§4.7) for C5: split `PARAMS` only on
top-level commas, a comma being top-level when not nested inside `()`, `[]`,
`{}` or a generic `<>` type-argument list. -/
def topLevelCommaSplit (ps : List Char) : List (List Char) :=
  let step := fun (acc : List (List Char) × List Char × Nat) (c : Char) =>
    let (done, cur, depth) := acc
    if c = '(' ∨ c = '[' ∨ c = '{' ∨ c = '<' then (done, cur ++ [c], depth + 1)
    else if c = ')' ∨ c = ']' ∨ c = '}' ∨ c = '>' then (done, cur ++ [c], depth - 1)
    else if c = ',' ∧ depth = 0 then (done ++ [cur], [], depth)
    else (done, cur ++ [c], depth)
  let (done, cur, _) := ps.foldl step ([], [], 0)
  done ++ [cur]

/-- Parameter list the spec's words prescribe: top-level comma split, then
each piece split at its first `:`. -/
def specSplitParams (ps : List Char) : List Param :=
  if (trimChars ps).isEmpty then []
  else (topLevelCommaSplit ps).filterMap paramOfPiece

/-- Params of a successful parse, `[]` otherwise (projection used to state
concrete evaluations of `Signature.parseRun`). -/
def paramsOfRun (r : RunResult (Option Signature)) : List Param :=
  match r with
  | .value (some s) => s.params
  | _ => []

/-! ## Persistence save path (src/graph/persistence.rs, `CodeGraph::save`) -/

/-- Split a character list at the last occurrence of `sep`:
`some (before, after)`, or `none` when `sep` does not occur. -/
def splitAtLastCh (sep : Char) : List Char → Option (List Char × List Char)
  | [] => none
  | c :: rest =>
    match splitAtLastCh sep rest with
    | some (a, b) => some (c :: a, b)
    | none => if c = sep then some ([], rest) else none

/-- Split a path into its directory prefix (with trailing `/`) and file name,
mirroring how `Path::with_extension` only rewrites the final component. -/
def splitDirFile (p : List Char) : List Char × List Char :=
  match splitAtLastCh '/' p with
  | some (d, f) => (d ++ ['/'], f)
  | none => ([], p)

/-- Rust `Path::file_stem` on a file name: the portion before the final `.`,
except that a name whose only `.` is the leading one is its own stem. -/
def fileStem (f : List Char) : List Char :=
  match splitAtLastCh '.' f with
  | some ([], _) => f
  | some (st, _) => st
  | none => f

/-- Rust `Path::with_extension(ext)` for a nonempty `ext` (the call site in
`CodeGraph::save` passes `"tmp"`): replace the extension of the final path
component. -/
def withExtension (p : String) (ext : String) : String :=
  let df := splitDirFile p.toList
  (df.1 ++ fileStem df.2 ++ '.' :: ext.toList).asString

/-- One file-system operation performed by `CodeGraph::save`. -/
inductive FsOp where
  | create (path : String)
  | writeAll (path : String) (bytes : List Nat)
  | syncAll (path : String)
  | rename (src dst : String)
  deriving DecidableEq, Repr

/-- `CodeGraph::save` (src/graph/persistence.rs): the sequence of file-system
operations performed after successful serialization. `bytes` abstracts the
bincode output, whose production is external to this repository. -/
def saveOps (path : String) (bytes : List Nat) : List FsOp :=
  let tmpPath := withExtension path "tmp"
  [.create tmpPath, .writeAll tmpPath bytes, .syncAll tmpPath,
   .rename tmpPath path]

/-! ## Daemon protocol (src/daemon/protocol.rs, src/daemon/server.rs) -/

/-- `Request` (src/daemon/protocol.rs): the command carried by one
connection's single request line. -/
inductive Request where
  | search (query : String) (depth : Nat)
  | context (query intent : String)
  | deps (symbol : String)
  | stats
  | overview
  | create (path content : String)
  | insert (path pat content : String)
  | replace (path old new : String)
  | lockStatus (path : String)
  | locks
  | rebuild
  | ping
  | shutdown
  deriving DecidableEq, Repr

/-- `Response` (src/daemon/protocol.rs). The `data` payload of `ok` is an
arbitrary JSON value in the source; its rendering is abstracted to a string. -/
inductive Response where
  | ok (data : String)
  | error (message : String)
  | pong
  | goodbye
  deriving DecidableEq, Repr

/-- `handle_client` (src/daemon/server.rs): the response frames written to a
connection. `decoded` is the result of `serde_json::from_str` on the request
line (the serde decoder itself is external to the repository) and `process`
abstracts `process_request`. The `?` on `serde_json::from_str` returns from
`handle_client` before `writeln!`, so a decode failure writes no frame. -/
def handleClientFrames (decoded : Except String Request)
    (process : Request → Response) : List Response :=
  match decoded with
  | .error _ => []
  | .ok req => [process req]

/-! ## Graph engine

Modelled from the spec: the graph engine (`src/graph/engine.rs`) and its node
and edge types (`src/graph/types.rs`) are not among the provided sources —
only `src/graph/persistence.rs`, the query layer and tests that call them
are. Node and edge kinds, the node payload, `add_file` (idempotent on path),
`add_symbol` (always fresh), `add_edge` (skips exact duplicates), `stats`,
`search` (case-sensitive substring with exact/prefix/rest ranking),
`dependents` and `dependencies` are modelled from §3 and §4.3 of the spec;
the node vector with positional ids mirrors §9 and petgraph's index order
used by `persistence.rs`.
-/

/-- Node kinds (§3). Lean keywords force renamed constructors:
`strct`=struct, `cls`=class, `typeAlias`=type, `modul`=module,
`var`=variable, `imported`=import. -/
inductive NodeKind where
  | file
  | function
  | method
  | strct
  | enum
  | trait
  | impl
  | cls
  | interface
  | typeAlias
  | constant
  | modul
  | var
  | imported
  deriving DecidableEq, Repr

/-- The lowercase display name of a node kind (`NodeKind::to_string`). -/
def kindToString : NodeKind → String
  | .file => "file"
  | .function => "function"
  | .method => "method"
  | .strct => "struct"
  | .enum => "enum"
  | .trait => "trait"
  | .impl => "impl"
  | .cls => "class"
  | .interface => "interface"
  | .typeAlias => "type"
  | .constant => "constant"
  | .modul => "module"
  | .var => "variable"
  | .imported => "import"

/-- Edge kinds (§3). -/
inductive EdgeKind where
  | defines
  | calls
  | imports
  | references
  | contains
  deriving DecidableEq, Repr

/-- Edge payload (`EdgeData` in src/graph/types.rs, as used by
persistence.rs through `data.kind`). -/
structure EdgeData where
  kind : EdgeKind
  deriving DecidableEq, Repr

/-- Node payload (`NodeData`): exactly the fields `persistence.rs` reads
(`name`, `kind`, `file_path`, `line_start`, `line_end`, `code_snippet`,
`removed`). Paths are plain strings. -/
structure NodeData where
  name : String
  kind : NodeKind
  file_path : String
  line_start : Nat
  line_end : Nat
  code_snippet : String
  removed : Bool
  deriving DecidableEq, Repr

instance : Inhabited NodeData :=
  ⟨{ name := "", kind := .file, file_path := "", line_start := 0, line_end := 0,
     code_snippet := "", removed := false }⟩

/-- The in-memory graph: a node vector whose positions are the ids, plus an
edge list `(src, dst, data)` in insertion order (§9). -/
structure CodeGraph where
  nodes : List NodeData
  edges : List (Nat × Nat × EdgeData)
  deriving DecidableEq, Repr

/-- The node a fresh `add_file` creates for a path. -/
def mkFileNode (path : String) : NodeData :=
  { name := path, kind := .file, file_path := path, line_start := 0, line_end := 0,
    code_snippet := "", removed := false }

/-- `add_file` (§4.3): idempotent on path — returns the existing visible file
node's id if any, else appends a fresh node. The name/file indexes never
reference tombstoned nodes (§3), so the lookup sees visible nodes only. -/
def CodeGraph.addFile (g : CodeGraph) (path : String) : CodeGraph × Nat :=
  match g.nodes.findIdx? (fun n => n.kind == .file && n.file_path == path && !n.removed) with
  | some i => (g, i)
  | none => ({ g with nodes := g.nodes ++ [mkFileNode path] }, g.nodes.length)

/-- `add_symbol` (§4.3): always creates a new node. -/
def CodeGraph.addSymbol (g : CodeGraph) (name : String) (kind : NodeKind)
    (file : String) (ls le : Nat) (snippet : String) : CodeGraph × Nat :=
  ({ g with nodes := g.nodes ++
      [{ name := name, kind := kind, file_path := file, line_start := ls,
         line_end := le, code_snippet := snippet, removed := false }] },
   g.nodes.length)

/-- `add_edge` (§4.3): appends, skipping an exact duplicate. -/
def CodeGraph.addEdge (g : CodeGraph) (src dst : Nat) (k : EdgeKind) : CodeGraph :=
  if (src, dst, EdgeData.mk k) ∈ g.edges then g
  else { g with edges := g.edges ++ [(src, dst, EdgeData.mk k)] }

/-- Set the `removed` bit of the node at index `i` (out of range: no-op),
mirroring `node_weight_mut` in `from_serializable`. -/
def setRemovedAt : List NodeData → Nat → List NodeData
  | [], _ => []
  | n :: rest, 0 => { n with removed := true } :: rest
  | n :: rest, j + 1 => n :: setRemovedAt rest j

/-- Mark a node of the graph as removed. -/
def CodeGraph.markRemoved (g : CodeGraph) (i : Nat) : CodeGraph :=
  { g with nodes := setRemovedAt g.nodes i }

/-- Is the node at index `i` present and visible? -/
def CodeGraph.visibleAt (g : CodeGraph) (i : Nat) : Bool :=
  match g.nodes[i]? with
  | some n => !n.removed
  | none => false

/-- `GraphStats` (§4.3). -/
structure GraphStats where
  file_count : Nat
  symbol_count : Nat
  total_edges : Nat
  deriving DecidableEq, Repr

/-- `stats()` (§4.3): counts over visible nodes and edges only. -/
def CodeGraph.stats (g : CodeGraph) : GraphStats :=
  { file_count := (g.nodes.filter (fun n => n.kind == .file && !n.removed)).length
    symbol_count := (g.nodes.filter (fun n => n.kind != .file && !n.removed)).length
    total_edges := (g.edges.filter (fun e => g.visibleAt e.1 && g.visibleAt e.2.1)).length }

/-- All visible nodes. -/
def CodeGraph.visibleNodes (g : CodeGraph) : List NodeData :=
  g.nodes.filter (fun n => !n.removed)

/-- All edges between visible endpoints. -/
def CodeGraph.visibleEdges (g : CodeGraph) : List (Nat × Nat × EdgeData) :=
  g.edges.filter (fun e => g.visibleAt e.1 && g.visibleAt e.2.1)

/-! ## Persistence (src/graph/persistence.rs) -/

/-- `SerializableGraph`: nodes in index order, edges by node position. -/
structure SerializableGraph where
  nodes : List NodeData
  edges : List (Nat × Nat × EdgeData)
  deriving DecidableEq, Repr

/-- `to_serializable`: collect nodes in index order and edges as
`(source_index, target_index, data)`. -/
def CodeGraph.toSerializable (g : CodeGraph) : SerializableGraph :=
  { nodes := g.nodes, edges := g.edges }

/-- The node loop of `from_serializable`: re-add each node through
`add_file`/`add_symbol`, restore its tombstone bit, and record its new index
in the index map. -/
def rebuildNodes : List NodeData → CodeGraph → List Nat → CodeGraph × List Nat
  | [], g, m => (g, m)
  | node :: rest, g, m =>
    let gi :=
      if node.kind == .file then g.addFile node.file_path
      else g.addSymbol node.name node.kind node.file_path node.line_start
        node.line_end node.code_snippet
    let g2 := if node.removed then gi.1.markRemoved gi.2 else gi.1
    rebuildNodes rest g2 (m ++ [gi.2])

/-- The edge loop of `from_serializable`. The source indexes `index_map`
directly (panicking out of range); `getD` models the in-range behaviour,
and well-formedness keeps every stored endpoint in range. -/
def rebuildEdges (m : List Nat) : List (Nat × Nat × EdgeData) → CodeGraph → CodeGraph
  | [], g => g
  | (s, t, d) :: rest, g => rebuildEdges m rest (g.addEdge (m.getD s 0) (m.getD t 0) d.kind)

/-- `from_serializable`. -/
def fromSerializable (sg : SerializableGraph) : CodeGraph :=
  let gm := rebuildNodes sg.nodes { nodes := [], edges := [] } []
  rebuildEdges gm.2 sg.edges gm.1

/-! ## Query operations on the graph (spec §4.3) -/

/-- Case-sensitive substring containment (Rust `str::contains`). -/
def containsSub (hay needle : String) : Bool :=
  decide (List.IsInfix needle.toList hay.toList)

/-- Callee reference inside a search result (`results[0].calls[0].name` in
the persistence tests). -/
structure CallRef where
  name : String
  deriving DecidableEq, Repr

/-- `SearchResult` as consumed by the query layer: symbol name, kind, file,
start line, snippet, and outgoing call names. -/
structure SearchResult where
  symbol : String
  kind : NodeKind
  file : String
  line_start : Nat
  code : String
  calls : List CallRef
  deriving DecidableEq, Repr

/-- Search ranking (§4.3): exact matches first, then prefix matches, then
the rest. -/
def searchRank (q name : String) : Nat :=
  if name = q then 0 else if q.toList.isPrefixOf name.toList then 1 else 2

/-- Lexicographic string order on the character lists. -/
def strLeChars : List Char → List Char → Bool
  | [], _ => true
  | _ :: _, [] => false
  | a :: as, b :: bs => if a = b then strLeChars as bs else decide (a < b)

/-- Search ordering (§4.3): rank, then shorter name, then file path. -/
def searchLE (q : String) (a b : NodeData) : Bool :=
  let ra := searchRank q a.name
  let rb := searchRank q b.name
  if ra ≠ rb then ra < rb
  else if a.name.length ≠ b.name.length then a.name.length < b.name.length
  else strLeChars a.file_path.toList b.file_path.toList

/-- Insertion step of a stable insertion sort. -/
def insertBy (le : α → α → Bool) (x : α) : List α → List α
  | [] => [x]
  | y :: ys => if le x y then x :: y :: ys else y :: insertBy le x ys

/-- Stable insertion sort by a boolean order. -/
def sortBy (le : α → α → Bool) (l : List α) : List α :=
  l.foldr (insertBy le) []

/-- Build the `SearchResult` of node `i`. -/
def CodeGraph.toSearchResult (g : CodeGraph) (i : Nat) : SearchResult :=
  let n := g.nodes.getD i default
  { symbol := n.name, kind := n.kind, file := n.file_path,
    line_start := n.line_start, code := n.code_snippet,
    calls := g.edges.filterMap (fun e =>
      if e.1 == i && e.2.2.kind == .calls && g.visibleAt e.2.1 then
        some ⟨(g.nodes.getD e.2.1 default).name⟩
      else none) }

/-- `search(query, limit)` (§4.3): up to `limit` visible symbols whose name
contains `query`, exact matches first, then prefix matches, then the rest,
ties broken by shorter name then file path. -/
def CodeGraph.search (g : CodeGraph) (q : String) (limit : Nat) : List SearchResult :=
  let cand := (List.range g.nodes.length).filter (fun i =>
    match g.nodes[i]? with
    | some n => n.kind != .file && !n.removed && containsSub n.name q
    | none => false)
  let sorted := sortBy (fun i j => searchLE q (g.nodes.getD i default) (g.nodes.getD j default)) cand
  (sorted.take limit).map g.toSearchResult

/-- `DependencyInfo` as consumed by `Reference::from_dep`. -/
structure DependencyInfo where
  symbol : String
  kind : NodeKind
  file : String
  line : Nat
  relationship : String
  deriving DecidableEq, Repr

/-- The `DependencyInfo` describing node `i`. -/
def CodeGraph.depInfoOf (g : CodeGraph) (i : Nat) (rel : String) : DependencyInfo :=
  let n := g.nodes.getD i default
  { symbol := n.name, kind := n.kind, file := n.file_path,
    line := n.line_start, relationship := rel }

/-- `dependents(name)` (§4.3): sources of visible `Calls` edges whose target
is named `name`, plus importers of a matching node. -/
def CodeGraph.dependents (g : CodeGraph) (name : String) : List DependencyInfo :=
  g.edges.filterMap (fun e =>
    if e.2.2.kind == .calls && g.visibleAt e.1 && g.visibleAt e.2.1
        && (g.nodes.getD e.2.1 default).name == name then
      some (g.depInfoOf e.1 "calls")
    else none)
  ++ g.edges.filterMap (fun e =>
    if e.2.2.kind == .imports && g.visibleAt e.1 && g.visibleAt e.2.1
        && (g.nodes.getD e.2.1 default).name == name then
      some (g.depInfoOf e.1 "imports")
    else none)

/-- `dependencies(name)` (§4.3): callees of every visible node named `name`. -/
def CodeGraph.dependencies (g : CodeGraph) (name : String) : List DependencyInfo :=
  ((List.range g.nodes.length).filter (fun i =>
    g.visibleAt i && (g.nodes.getD i default).name == name)).flatMap (fun i =>
      g.edges.filterMap (fun e =>
        if e.1 == i && e.2.2.kind == .calls && g.visibleAt e.2.1 then
          some (g.depInfoOf e.2.1 "calls")
        else none))

/-! ### Enumerates the audited well-formedness of graphs

`WFGraph` collects the engine invariants every graph built through the API
satisfies (§3, §4.3): file nodes are canonical `add_file` nodes, a file node
with the same path as a later one is tombstoned (re-adding a removed path
creates a fresh later node), the edge list has no exact duplicates
(`add_edge` skips them), and edge endpoints are in range.
-/

def WFGraph (g : CodeGraph) : Prop :=
  (∀ n ∈ g.nodes, n.kind = .file →
      n.name = n.file_path ∧ n.line_start = 0 ∧ n.line_end = 0 ∧ n.code_snippet = "") ∧
  g.nodes.Pairwise (fun a b =>
    b.kind = .file → a.kind = .file → a.file_path = b.file_path → a.removed = true) ∧
  g.edges.Nodup ∧
  (∀ e ∈ g.edges, e.1 < g.nodes.length ∧ e.2.1 < g.nodes.length)

instance (g : CodeGraph) : Decidable (WFGraph g) := by
  unfold WFGraph
  infer_instance

/-! ## Context engine (src/query/context.rs and src/query/types.rs)

File reads (`fs::read_to_string` in `get_context_lines`) are modelled by an
explicit map `fs : String → Option String`; `none` is a read failure.
A possible panic inside `Signature::parse` or `extract_call_args` is
propagated through `RunResult`.
-/

/-- Rust `str::to_lowercase` restricted to its ASCII action. -/
def lowerAscii (s : String) : String :=
  (s.toList.map Char.toLower).asString

/-- Rust `str::lines` on a character list: split on `'\n'`, drop a final
empty piece produced by a trailing newline, and strip the `'\r'` of a
`"\r\n"` terminator. -/
def rustLinesCh (s : List Char) : List (List Char) :=
  if s.isEmpty then []
  else
    let parts := s.splitOn '\n'
    let stripCr := fun (l : List Char) => if l.getLast? = some '\r' then l.dropLast else l
    let main := parts.dropLast.map stripCr
    match parts.getLast? with
    | some lastPc => if lastPc.isEmpty then main else main ++ [lastPc]
    | none => main

/-- Rust `str::lines` on strings. -/
def strLines (s : String) : List String :=
  (rustLinesCh s.toList).map List.asString

/-- Remove every trailing occurrence of `c` (Rust `trim_end_matches`). -/
def trimEndMatchesCh (c : Char) (l : List Char) : List Char :=
  (l.reverse.dropWhile (· = c)).reverse

/-- One trimmed line of `extract_signature_from_code`: `some r` when the line
looks like a Rust/Python/JS definition and the scan returns with `r`,
`none` when the scan moves on to the next line. -/
def sigLineResult (l : List Char) : Option (RunResult (Option Signature)) :=
  let rustPart : Option (RunResult (Option Signature)) :=
    if "fn ".toList.isPrefixOf l || containsSub l.asString " fn " then
      match findSubIdx "fn ".toList l with
      | some fnStart =>
        let rest := l.drop fnStart
        let sigEnd := (findCharIdx '{' rest).getD rest.length
        some (Signature.parseRun (trimChars (rest.take sigEnd)).asString)
      | none => none
    else none
  match rustPart with
  | some r => some r
  | none =>
    if "def ".toList.isPrefixOf l then
      let sigEnd := (findCharIdx ':' l).getD l.length
      let sigStr := (l.take sigEnd).drop 4
      some (Signature.parseRun (trimEndMatchesCh ')' sigStr ++ [')']).asString)
    else if "function ".toList.isPrefixOf l then
      let sigEnd := (findCharIdx '{' l).getD l.length
      some (Signature.parseRun ((l.take sigEnd).drop 9).asString)
    else none

/-- The line loop of `extract_signature_from_code`. -/
def sigFromLines : List (List Char) → RunResult (Option Signature)
  | [] => .value none
  | l :: rest =>
    match sigLineResult (trimChars l) with
    | some r => r
    | none => sigFromLines rest

/-- `extract_signature_from_code` (src/query/context.rs). -/
def extractSignatureFromCode (code : String) : RunResult (Option Signature) :=
  sigFromLines (rustLinesCh code.toList)

/-- The scan loop of `extract_call_expression`: returns `some end` for the
break at `end_idx = i + 1`. `depth` is a Rust `i32`. -/
def callExprScan : List Char → Nat → Int → Bool → Option Nat
  | [], _, _, _ => none
  | c :: rest, i, depth, started =>
    if c = '(' then callExprScan rest (i + 1) (depth + 1) true
    else if c = ')' then
      if started ∧ depth - 1 = 0 then some (i + 1)
      else callExprScan rest (i + 1) (depth - 1) started
    else callExprScan rest (i + 1) depth started

/-- `extract_call_expression` (src/query/context.rs). -/
def extractCallExpression (code : List Char) : Option (List Char) :=
  (callExprScan code 0 0 false).map (fun e => code.take e)

/-- `find_usages_in_code` (src/query/context.rs): per line, the first
occurrence of `symbol` immediately followed by `(` yields
`(line_offset, call_expression, trimmed_line)`. -/
def findUsagesInCode (code symbol : String) : List (Nat × String × String) :=
  (rustLinesCh code.toList).enum.filterMap (fun p =>
    let line := p.2
    match findSubIdx symbol.toList line with
    | some start =>
      let afterSymbol := line.drop start
      if afterSymbol.length > symbol.toList.length then
        if afterSymbol[symbol.toList.length]? = some '(' then
          (extractCallExpression afterSymbol).map
            (fun u => (p.1, u.asString, (trimChars line).asString))
        else none
      else none
    | none => none)

/-- The comma loop of `extract_call_args`: depth counting over `()`, `[]`,
`{}`, split on top-level commas. -/
def callArgsLoop : List Char → List String → List Char → Int → List String
  | [], args, cur, _ =>
    if (trimChars cur).isEmpty then args else args ++ [(trimChars cur).asString]
  | c :: rest, args, cur, depth =>
    if c = '(' ∨ c = '[' ∨ c = '{' then callArgsLoop rest args (cur ++ [c]) (depth + 1)
    else if c = ')' ∨ c = ']' ∨ c = '}' then callArgsLoop rest args (cur ++ [c]) (depth - 1)
    else if c = ',' ∧ depth = 0 then callArgsLoop rest (args ++ [(trimChars cur).asString]) [] depth
    else callArgsLoop rest args (cur ++ [c]) depth

/-- `extract_call_args` (src/query/context.rs). `RunResult.panicked` models
the slice `&call[open_paren + 1..close_paren]` when the last `)` precedes
the first `(`. -/
def extractCallArgs (call : String) : RunResult (List String) :=
  let cs := call.toList
  match findCharIdx '(' cs with
  | none => .value []
  | some openParen =>
    match rfindCharIdx ')' cs with
    | none => .value []
    | some closeParen =>
      match sliceChk cs (openParen + 1) closeParen with
      | none => .panicked
      | some argsStr =>
        if (trimChars argsStr).isEmpty then .value []
        else .value (callArgsLoop argsStr [] [] 0)

/-- `generate_suggested_call` (src/query/context.rs). -/
def generateSuggestedCall (currentUsage : String) (newSig : Signature)
    (addedParams : List Param) : RunResult String :=
  match extractCallArgs currentUsage with
  | .panicked => .panicked
  | .value currentArgs =>
    let newArgs := currentArgs ++ addedParams.map (fun p => "<" ++ p.name ++ ">")
    .value (newSig.name ++ "(" ++ String.intercalate ", " newArgs ++ ")")

/-- Rust `format!("{:4}", n)`: right-align in a field of width 4. -/
def padNum4 (n : Nat) : String :=
  let s := toString n
  (List.replicate (4 - s.length) ' ').asString ++ s

/-- `get_context_lines` (src/query/context.rs): `line ± context_size` of the
file, the exact line prefixed `>`, others ` `; empty on read failure. -/
def getContextLines (fs : String → Option String) (filePath : String)
    (line ctxSize : Nat) : List String :=
  match fs filePath with
  | none => []
  | some content =>
    let lines := strLines content
    if line = 0 ∨ line > lines.length then []
    else
      let start := line - (ctxSize + 1)
      let stop := min (line + ctxSize) lines.length
      ((lines.take stop).drop start).enum.map (fun p =>
        let lineNum := start + p.1 + 1
        (if lineNum = line then ">" else " ") ++ padNum4 lineNum ++ "| " ++ p.2)

/-- `Symbol` (src/query/types.rs). -/
structure Symbol where
  name : String
  kind : String
  file : String
  line : Nat
  code : String
  deriving DecidableEq, Repr

/-- `Symbol::from_search_result`. -/
def Symbol.fromSearchResult (r : SearchResult) : Symbol :=
  { name := r.symbol, kind := kindToString r.kind, file := r.file,
    line := r.line_start, code := r.code }

/-- `Reference` (src/query/types.rs). -/
structure Reference where
  name : String
  kind : String
  file : String
  line : Nat
  relationship : String
  deriving DecidableEq, Repr

/-- `Reference::from_dep`. -/
def Reference.fromDep (d : DependencyInfo) : Reference :=
  { name := d.symbol, kind := kindToString d.kind, file := d.file,
    line := d.line, relationship := d.relationship }

/-- `Edit` (src/query/types.rs). -/
structure Edit where
  file : String
  line : Nat
  in_symbol : String
  usage : String
  line_content : String
  suggested : Option String
  new_args : List String
  removed_args : List String
  context : List String
  deriving DecidableEq, Repr

/-- `ContextResponse` (src/query/types.rs). -/
structure ContextResponse where
  query : String
  intent : String
  found : Bool
  symbols : List Symbol
  used_by : List Reference
  uses : List Reference
  edits : List Edit
  patterns : List Symbol
  tests : List Symbol
  stats : Option GraphStats
  deriving DecidableEq, Repr

/-- `ContextResponse::default`. -/
def ContextResponse.dflt : ContextResponse :=
  { query := "", intent := "explore", found := false, symbols := [],
    used_by := [], uses := [], edits := [], patterns := [], tests := [],
    stats := none }

/-- `build_edit` (src/query/context.rs). -/
def buildEdit (fs : String → Option String) (g : CodeGraph)
    (targetSymbol : String) (dep : DependencyInfo) (newSig : Option Signature)
    (sigDiff : Option (List Param × List Param)) : RunResult (Option Edit) :=
  match (g.search dep.symbol 1).head? with
  | none => .value none
  | some r =>
    let callerCode := r.code
    let usages := findUsagesInCode callerCode targetSymbol
    match usages.head? with
    | none =>
      .value (some
        { file := dep.file, line := dep.line, in_symbol := dep.symbol,
          usage := targetSymbol ++ "(...)",
          line_content := (strLines callerCode).headD "",
          suggested := none, new_args := [], removed_args := [], context := [] })
    | some u =>
      let actualLine := dep.line + u.1
      let context := getContextLines fs dep.file actualLine 2
      match newSig, sigDiff with
      | some ns, some d =>
        match generateSuggestedCall u.2.1 ns d.1 with
        | .panicked => .panicked
        | .value suggested =>
          .value (some
            { file := dep.file, line := actualLine, in_symbol := dep.symbol,
              usage := u.2.1, line_content := u.2.2,
              suggested := some suggested,
              new_args := d.1.map (fun p => p.name ++ ": " ++ p.typ),
              removed_args := d.2.map Param.name, context := context })
      | _, _ =>
        .value (some
          { file := dep.file, line := actualLine, in_symbol := dep.symbol,
            usage := u.2.1, line_content := u.2.2, suggested := none,
            new_args := [], removed_args := [], context := context })

/-- The dependents loop of `change`: edits accumulate for every dependent
whose `build_edit` yields one. -/
def buildEditsLoop (fs : String → Option String) (g : CodeGraph)
    (targetSymbol : String) (newSig : Option Signature)
    (sigDiff : Option (List Param × List Param)) :
    List DependencyInfo → List Edit → RunResult (List Edit)
  | [], acc => .value acc
  | d :: ds, acc =>
    match buildEdit fs g targetSymbol d newSig sigDiff with
    | .panicked => .panicked
    | .value none => buildEditsLoop fs g targetSymbol newSig sigDiff ds acc
    | .value (some e) => buildEditsLoop fs g targetSymbol newSig sigDiff ds (acc ++ [e])

/-- First loop of `find_tests`: symbols from `search("test", 50)` whose
lowercased name contains `test` and whose snippet mentions the target;
breaks after the push that reaches five. -/
def findTestsLoop1 (symbol : String) : List SearchResult → List Symbol → List Symbol
  | [], acc => acc
  | r :: rest, acc =>
    if containsSub (lowerAscii r.symbol) "test" && containsSub r.code symbol then
      let acc2 := acc ++ [Symbol.fromSearchResult r]
      if acc2.length ≥ 5 then acc2 else findTestsLoop1 symbol rest acc2
    else findTestsLoop1 symbol rest acc

/-- Second loop of `find_tests`: dependents named like tests, deduplicated by
name; breaks after the push that reaches five (a push past five is possible,
as in the source). -/
def findTestsLoop2 (g : CodeGraph) : List DependencyInfo → List Symbol → List Symbol
  | [], acc => acc
  | d :: ds, acc =>
    if containsSub (lowerAscii d.symbol) "test" then
      match (g.search d.symbol 1).head? with
      | some r =>
        if acc.any (fun t => t.name == d.symbol) then findTestsLoop2 g ds acc
        else
          let acc2 := acc ++ [Symbol.fromSearchResult r]
          if acc2.length ≥ 5 then acc2 else findTestsLoop2 g ds acc2
      | none => findTestsLoop2 g ds acc
    else findTestsLoop2 g ds acc

/-- `find_tests` (src/query/context.rs). -/
def findTests (g : CodeGraph) (symbol : String) : List Symbol :=
  findTestsLoop2 g (g.dependents symbol) (findTestsLoop1 symbol (g.search "test" 50) [])

/-- Rust `Path::parent` on the string model: the part before the last `/`
(`some ""` when there is no `/`, `none` for the empty path). -/
def parentDir (p : String) : Option (List Char) :=
  if p.isEmpty then none
  else
    match splitAtLastCh '/' p.toList with
    | some d => some d.1
    | none => some []

/-- The loop of `find_similar`: same kind, different name, preferring the
same directory; breaks once five are collected. -/
def findSimilarLoop (ref : SearchResult) : List SearchResult → List Symbol → List Symbol
  | [], acc => acc
  | r :: rest, acc =>
    if r.kind == ref.kind && r.symbol != ref.symbol then
      let sameDir := parentDir r.file == parentDir ref.file
      let acc2 := if sameDir || acc.length < 3 then acc ++ [Symbol.fromSearchResult r] else acc
      if acc2.length ≥ 5 then acc2 else findSimilarLoop ref rest acc2
    else findSimilarLoop ref rest acc

/-- `find_similar` (src/query/context.rs). -/
def findSimilar (g : CodeGraph) (ref : SearchResult) : List Symbol :=
  findSimilarLoop ref (g.search "" 100) []

/-- `explore` (src/query/context.rs): dependents into `used_by`,
dependencies into `uses`. -/
def explore (g : CodeGraph) (query : String) (response : ContextResponse) :
    ContextResponse :=
  { response with
    used_by := (g.dependents query).map Reference.fromDep
    uses := (g.dependencies query).map Reference.fromDep }

/-- `create` (src/query/context.rs): patterns from the first match. -/
def createIntent (g : CodeGraph) (results : List SearchResult)
    (response : ContextResponse) : ContextResponse :=
  match results.head? with
  | some ref => { response with patterns := findSimilar g ref }
  | none => response

/-- `change` (src/query/context.rs): dependents, signature diff, one edit
attempt per dependent, related tests. -/
def changeIntent (fs : String → Option String) (g : CodeGraph) (query : String)
    (newSignature : Option String) (response : ContextResponse) :
    RunResult ContextResponse :=
  let deps := g.dependents query
  let response := { response with used_by := deps.map Reference.fromDep }
  let oldSigR :=
    match (g.search query 1).head? with
    | none => RunResult.value none
    | some r => extractSignatureFromCode r.code
  match oldSigR with
  | .panicked => .panicked
  | .value oldSig =>
    let newSigR :=
      match newSignature with
      | none => RunResult.value none
      | some s => Signature.parseRun s
    match newSigR with
    | .panicked => .panicked
    | .value newSig =>
      let sigDiff :=
        match oldSig, newSig with
        | some o, some n => some (o.diff n)
        | _, _ => none
      match buildEditsLoop fs g query newSig sigDiff deps [] with
      | .panicked => .panicked
      | .value edits =>
        .value { response with edits := edits, tests := findTests g query }

/-- `get_context_for_change` (src/query/context.rs): search, then dispatch on
the intent — `explore`, `change`, `create`, and every other intent falls to
the default arm. -/
def getContextForChange (fs : String → Option String) (g : CodeGraph)
    (query intent : String) (newSignature : Option String) :
    RunResult ContextResponse :=
  let response := { ContextResponse.dflt with query := query, intent := intent }
  let results := g.search query 5
  if results.isEmpty then .value response
  else
    let response :=
      { response with found := true, symbols := results.map Symbol.fromSearchResult }
    match intent with
    | "explore" => .value (explore g query response)
    | "change" => changeIntent fs g query newSignature response
    | "create" => .value (createIntent g results response)
    | _ => .value (explore g query response)

/-- `get_context` (src/query/context.rs). -/
def getContext (fs : String → Option String) (g : CodeGraph)
    (query intent : String) : RunResult ContextResponse :=
  getContextForChange fs g query intent none

/-- Map over the value of a `RunResult`. -/
def RunResult.map (f : α → β) : RunResult α → RunResult β
  | .panicked => .panicked
  | .value a => .value (f a)

/-- A file system on which every read fails. -/
def emptyFs : String → Option String := fun _ => none

/-- A concrete graph for evaluating the context engine: `process` calls
`validate`, and `test_process` mentions it. -/
def ctxDemoGraph : CodeGraph :=
  { nodes :=
      [ mkFileNode "src/lib.rs",
        { name := "process", kind := .function, file_path := "src/lib.rs",
          line_start := 2, line_end := 5,
          code_snippet := "pub fn process(input: &str) -> String \x7b\n    validate(input);\n    transform(input)\n\x7d",
          removed := false },
        { name := "validate", kind := .function, file_path := "src/lib.rs",
          line_start := 7, line_end := 9,
          code_snippet := "fn validate(s: &str) -> bool \x7b\n    !s.is_empty()\n\x7d",
          removed := false },
        { name := "test_process", kind := .function, file_path := "src/lib.rs",
          line_start := 12, line_end := 14,
          code_snippet := "fn test_process() \x7b\n    assert!(validate(\"hi\"));\n\x7d",
          removed := false } ],
    edges :=
      [ (0, 1, ⟨.defines⟩), (0, 2, ⟨.defines⟩), (0, 3, ⟨.defines⟩),
        (1, 2, ⟨.calls⟩) ] }

/-- A concrete graph with a live file and symbol plus a tombstoned file and
symbol, as `remove_file` leaves behind. -/
def c1DemoGraph : CodeGraph :=
  { nodes :=
      [ mkFileNode "src/main.rs",
        { name := "main", kind := .function, file_path := "src/main.rs",
          line_start := 1, line_end := 10, code_snippet := "fn main() {}",
          removed := false },
        { mkFileNode "src/old.rs" with removed := true },
        { name := "old_fn", kind := .function, file_path := "src/old.rs",
          line_start := 1, line_end := 5, code_snippet := "fn old_fn() {}",
          removed := true } ],
    edges := [ (0, 1, ⟨.defines⟩), (1, 3, ⟨.calls⟩) ] }

/-! ## Snippet truncation (src/parser/extractor.rs, `bounded_snippet`)

Snippets are modelled at the UTF-8 byte level (`List Nat`, each entry a
byte value) so that `str::is_char_boundary` and the walk-back loop are
translated literally.
-/

/-- `MAX_SNIPPET_LINES` (src/parser/extractor.rs). -/
def MAX_SNIPPET_LINES : Nat := 10

/-- `MAX_SNIPPET_BYTES` (src/parser/extractor.rs). -/
def MAX_SNIPPET_BYTES : Nat := 2048

/-- The bytes of an ASCII string. -/
def asciiBytes (s : String) : List Nat :=
  s.toList.map Char.toNat

/-- Is a byte a UTF-8 continuation byte (`0x80..0xBF`)? -/
def isUtf8Cont (b : Nat) : Bool :=
  decide (0x80 ≤ b ∧ b < 0xC0)

/-- Rust `str::is_char_boundary` at the byte level: index 0 and the length
are boundaries, any other in-range index is one iff its byte is not a
continuation byte. -/
def isCharBoundaryB (s : List Nat) (i : Nat) : Bool :=
  decide (i = 0) || decide (i = s.length) ||
    (decide (i < s.length) && !isUtf8Cont (s.getD i 0))

/-- The walk-back loop `while end > 0 && !raw.is_char_boundary(end)` of
`bounded_snippet`. -/
def backToBoundary (s : List Nat) : Nat → Nat
  | 0 => 0
  | e + 1 => if isCharBoundaryB s (e + 1) then e + 1 else backToBoundary s e

/-- The marker appended after a byte truncation. -/
def truncMarker : List Nat := asciiBytes "\n    // ... (truncated)"

/-- The marker appended after a line truncation. -/
def dotsMarker : List Nat := asciiBytes "\n    // ..."

/-- The marker text common to both truncation markers. -/
def dotsCore : List Nat := asciiBytes "// ..."

/-- Strip the trailing `\r` of a line terminated by `\r\n`. -/
def stripCrB (l : List Nat) : List Nat :=
  if l.getLast? = some 13 then l.dropLast else l

/-- Rust `str::lines` at the byte level: split on `\n` (byte 10), drop a
final empty piece from a trailing newline, strip the `\r` (byte 13) of a
`\r\n` terminator. -/
def rustLinesB (s : List Nat) : List (List Nat) :=
  if s.isEmpty then []
  else
    let parts := s.splitOn 10
    let main := parts.dropLast.map stripCrB
    match parts.getLast? with
    | some lastPc => if lastPc.isEmpty then main else main ++ [lastPc]
    | none => main

/-- `lines.join("\n")` at the byte level. -/
def interNl : List (List Nat) → List Nat
  | [] => []
  | [p] => p
  | p :: ps => p ++ 10 :: interNl ps

/-- The byte-limit stage of `bounded_snippet`: walk back to a
char boundary at or before 2048, cut, and append the truncation marker. -/
def byteBound (raw : List Nat) : List Nat :=
  if MAX_SNIPPET_BYTES < raw.length then
    raw.take (backToBoundary raw MAX_SNIPPET_BYTES) ++ truncMarker
  else raw

/-- `bounded_snippet` (src/parser/extractor.rs): byte limit first, then the
line limit on the result. -/
def boundedSnippet (raw : List Nat) : List Nat :=
  let bb := byteBound raw
  let ls := rustLinesB bb
  if ls.length ≤ MAX_SNIPPET_LINES then bb
  else interNl (ls.take MAX_SNIPPET_LINES) ++ dotsMarker

/-- UTF-8 encoding of one Unicode scalar value. -/
def utf8EncodeScalar (c : Nat) : List Nat :=
  if c < 0x80 then [c]
  else if c < 0x800 then [0xC0 + c / 64, 0x80 + c % 64]
  else if c < 0x10000 then
    [0xE0 + c / 4096, 0x80 + (c / 64) % 64, 0x80 + c % 64]
  else [0xF0 + c / 262144, 0x80 + (c / 4096) % 64, 0x80 + (c / 64) % 64,
        0x80 + c % 64]

/-- UTF-8 encoding of a scalar sequence. -/
def utf8Encode (cs : List Nat) : List Nat :=
  (cs.map utf8EncodeScalar).flatten

/-- The UTF-8 bytes of a string. -/
def strBytes (s : String) : List Nat :=
  utf8Encode (s.toList.map Char.toNat)

/-- An eleven-line snippet: the line limit cuts it. -/
def elevenLines : List Nat := asciiBytes "a\nb\nc\nd\ne\nf\ng\nh\ni\nj\nk"

/-! ## Extractor (src/parser/extractor.rs)

The tree-sitter parse tree is modelled as a rose tree carrying the node
kind, 0-based start and end rows, the node's source text, the field tag
under which the node sits in its parent, and the children in document
order. Parsing itself (tree-sitter) is external to the repository.
-/

/-- A concrete-syntax-tree node. -/
inductive TSNode where
  | mk (kind : String) (startRow endRow : Nat) (text : String)
      (fieldTag : Option String) (children : List TSNode)

/-- Node kind string. -/
def TSNode.kind : TSNode → String
  | .mk k _ _ _ _ _ => k

/-- 0-based start row (`start_position().row`). -/
def TSNode.startRow : TSNode → Nat
  | .mk _ s _ _ _ _ => s

/-- 0-based end row (`end_position().row`). -/
def TSNode.endRow : TSNode → Nat
  | .mk _ _ e _ _ _ => e

/-- Source text of the node (`utf8_text`). -/
def TSNode.text : TSNode → String
  | .mk _ _ _ t _ _ => t

/-- Field tag of the node within its parent. -/
def TSNode.fieldTag : TSNode → Option String
  | .mk _ _ _ _ f _ => f

/-- Children in order (`child(i)` for all `i`). -/
def TSNode.children : TSNode → List TSNode
  | .mk _ _ _ _ _ cs => cs

/-- `child_by_field_name`. -/
def TSNode.childByField (n : TSNode) (f : String) : Option TSNode :=
  n.children.find? (fun c => c.fieldTag == some f)

/-- `node_name`: the text of the `name` field child. -/
def nodeName (n : TSNode) : Option String :=
  (n.childByField "name").map TSNode.text

/-- `node_text`. -/
def nodeText (n : TSNode) : String := n.text

/-- The bounded snippet of a node (`bounded_snippet(node, source)`). -/
def nodeSnippet (n : TSNode) : List Nat :=
  boundedSnippet (strBytes n.text)

/-- `ExtractedSymbol` (src/graph/types.rs as used by the extractor). -/
structure ExtractedSymbol where
  name : String
  kind : NodeKind
  line_start : Nat
  line_end : Nat
  code_snippet : List Nat
  parent : Option String
  deriving DecidableEq, Repr

/-- `ExtractedImport`. -/
structure ExtractedImport where
  path : String
  symbols : List String
  line : Nat
  deriving DecidableEq, Repr

/-- `ExtractedCall`. -/
structure ExtractedCall where
  callee : String
  caller : String
  line : Nat
  deriving DecidableEq, Repr

/-- The three record streams an extraction produces. -/
structure Extraction where
  symbols : List ExtractedSymbol
  imports : List ExtractedImport
  calls : List ExtractedCall
  deriving DecidableEq, Repr

/-- The empty extraction. -/
def Extraction.empty : Extraction := ⟨[], [], []⟩

/-- Concatenation of extractions, in emission order. -/
def Extraction.app (a b : Extraction) : Extraction :=
  ⟨a.symbols ++ b.symbols, a.imports ++ b.imports, a.calls ++ b.calls⟩

/-- `SupportedLanguage` (src/parser/language.rs, used by the extractor). -/
inductive SupportedLanguage where
  | rust
  | python
  | javascript
  | typescript
  | tsx
  | go
  | java
  | csharp
  | ruby
  | cpp
  | swift
  deriving DecidableEq, Repr

/-- Rust `str::split_whitespace`, an auxiliary scan. -/
def splitWsAux : List Char → List Char → List String
  | [], cur => if cur.isEmpty then [] else [cur.reverse.asString]
  | c :: rest, cur =>
    if c.isWhitespace then
      if cur.isEmpty then splitWsAux rest []
      else cur.reverse.asString :: splitWsAux rest []
    else splitWsAux rest (c :: cur)

/-- Rust `str::split_whitespace`. -/
def splitWs (s : String) : List String :=
  splitWsAux s.toList []

/-- Rust `str::trim_start_matches(pat)`, fuelled by the input length (each
step consumes at least one character, so the fuel never runs out). -/
def trimStartMatchesFuel (pat : List Char) : Nat → List Char → List Char
  | 0, l => l
  | fuel + 1, l =>
    if !pat.isEmpty && pat.isPrefixOf l then
      trimStartMatchesFuel pat fuel (l.drop pat.length)
    else l

/-- Rust `str::trim_start_matches(pat)` for a string pattern. -/
def trimStartMatches (pat l : List Char) : List Char :=
  trimStartMatchesFuel pat l.length l

/-- Rust `str::split(pat)` for a string pattern, fuelled by the input
length (each step consumes at least one character). -/
def splitOnSubFuel (pat : List Char) : Nat → List Char → List (List Char)
  | 0, l => [l]
  | fuel + 1, l =>
    if pat.isEmpty then [l]
    else
      match findSubIdx pat l with
      | none => [l]
      | some i => l.take i :: splitOnSubFuel pat fuel (l.drop (i + pat.length))

/-- Rust `str::split(pat)` for a string pattern. -/
def splitOnSub (pat l : List Char) : List (List Char) :=
  splitOnSubFuel pat l.length l

/-- Rust `str::trim_matches(p)`: strip matching characters from both ends. -/
def trimMatchesSet (p : Char → Bool) (l : List Char) : List Char :=
  ((l.dropWhile p).reverse.dropWhile p).reverse

/-- `get_rust_impl_name`: the `type` field if present, else a textual
parse of `impl Foo {` / `impl Trait for Foo {`. -/
def getRustImplName (n : TSNode) : Option String :=
  match n.childByField "type" with
  | some t => some t.text
  | none =>
    let parts := splitWs (nodeText n)
    if parts.length ≥ 2 then
      if parts.contains "for" then
        ((parts.findIdx? (· == "for")).bind (fun i => parts[i + 1]?)).map
          (fun s => (trimChars (trimEndMatchesCh '{' s.toList)).asString)
      else
        some (trimEndMatchesCh '<' (trimEndMatchesCh '{' (parts.getD 1 "").toList)).asString
    else none

/-- The last segment of a text after any `.` or `:`
(`text.rsplit(['.', ':']).next()`). -/
def lastSegDotColon (text : List Char) : List Char :=
  (text.reverse.takeWhile (fun c => !(c = '.' ∨ c = ':'))).reverse

/-- `get_call_name`: last identifier of the `function` field, after `.` or
`::`. -/
def getCallName (n : TSNode) : Option String :=
  (n.childByField "function").bind (fun f =>
    let name := trimChars (lastSegDotColon f.text.toList)
    if name.isEmpty then none else some name.asString)

/-- The last segment of a text after any `.` (`text.rsplit('.').next()`). -/
def lastSegDot (text : List Char) : List Char :=
  (text.reverse.takeWhile (fun c => !(c = '.'))).reverse

/-- `get_python_call_name`. -/
def getPythonCallName (n : TSNode) : Option String :=
  (n.childByField "function").bind (fun f =>
    let name := trimChars (lastSegDot f.text.toList)
    if name.isEmpty then none else some name.asString)

/-- A symbol record as every extractor branch builds it. -/
def mkSym (n : TSNode) (name : String) (kind : NodeKind)
    (parent : Option String) : ExtractedSymbol :=
  { name := name, kind := kind, line_start := n.startRow + 1,
    line_end := n.endRow + 1, code_snippet := nodeSnippet n, parent := parent }

/-- `extract_rust_node` (the per-node match of the Rust extractor). -/
def extractRustNode (n : TSNode) (scope : Option String) : Extraction :=
  match n.kind with
  | "function_item" =>
    match nodeName n with
    | some name =>
      ⟨[mkSym n name (if scope.isSome then .method else .function) scope], [], []⟩
    | none => .empty
  | "struct_item" =>
    match nodeName n with
    | some name => ⟨[mkSym n name .strct none], [], []⟩
    | none => .empty
  | "enum_item" =>
    match nodeName n with
    | some name => ⟨[mkSym n name .enum none], [], []⟩
    | none => .empty
  | "trait_item" =>
    match nodeName n with
    | some name => ⟨[mkSym n name .trait none], [], []⟩
    | none => .empty
  | "impl_item" =>
    match getRustImplName n with
    | some name => ⟨[mkSym n name .impl none], [], []⟩
    | none => .empty
  | "const_item" =>
    match nodeName n with
    | some name => ⟨[mkSym n name .constant scope], [], []⟩
    | none => .empty
  | "static_item" =>
    match nodeName n with
    | some name => ⟨[mkSym n name .constant scope], [], []⟩
    | none => .empty
  | "type_item" =>
    match nodeName n with
    | some name => ⟨[mkSym n name .typeAlias none], [], []⟩
    | none => .empty
  | "mod_item" =>
    match nodeName n with
    | some name => ⟨[mkSym n name .modul none], [], []⟩
    | none => .empty
  | "use_declaration" =>
    let path := (trimChars (trimEndMatchesCh ';'
      (trimStartMatches "use ".toList (nodeText n).toList))).asString
    ⟨[], [{ path := path, symbols := [], line := n.startRow + 1 }], []⟩
  | "call_expression" =>
    match getCallName n, scope with
    | some callee, some caller =>
      ⟨[], [], [{ callee := callee, caller := caller, line := n.startRow + 1 }]⟩
    | _, _ => .empty
  | _ => .empty

/-- `extract_python_node`. -/
def extractPythonNode (n : TSNode) (scope : Option String) : Extraction :=
  match n.kind with
  | "function_definition" =>
    match nodeName n with
    | some name =>
      ⟨[mkSym n name (if scope.isSome then .method else .function) scope], [], []⟩
    | none => .empty
  | "class_definition" =>
    match nodeName n with
    | some name => ⟨[mkSym n name .cls none], [], []⟩
    | none => .empty
  | "import_statement" =>
    let path := (trimChars (trimStartMatches "import ".toList (nodeText n).toList)).asString
    ⟨[], [{ path := path, symbols := [], line := n.startRow + 1 }], []⟩
  | "import_from_statement" =>
    let text := (nodeText n).toList
    let pieces := splitOnSub "import".toList text
    let path := (trimChars (trimStartMatches "from ".toList (pieces.headD []))).asString
    let syms := ((pieces.getD 1 []).splitOn ',').filterMap (fun s =>
      let s := trimChars s
      if s.isEmpty then none else some s.asString)
    ⟨[], [{ path := path, symbols := syms, line := n.startRow + 1 }], []⟩
  | "call" =>
    match getPythonCallName n, scope with
    | some callee, some caller =>
      ⟨[], [], [{ callee := callee, caller := caller, line := n.startRow + 1 }]⟩
    | _, _ => .empty
  | _ => .empty

/-- `extract_js_variable_declaration`. -/
def extractJsVarDecl (n : TSNode) (scope : Option String) : List ExtractedSymbol :=
  n.children.filterMap (fun declarator =>
    if declarator.kind == "variable_declarator" then
      match nodeName declarator, declarator.childByField "value" with
      | some name, some value =>
        let kind :=
          match value.kind with
          | "arrow_function" => NodeKind.function
          | "function" => NodeKind.function
          | _ =>
            if name.toList.all (fun c => c.isUpper || c == '_') then NodeKind.constant
            else NodeKind.var
        some (mkSym n name kind scope)
      | _, _ => none
    else none)

/-- `extract_js_import`. -/
def extractJsImport (n : TSNode) : List ExtractedImport :=
  let text := (nodeText n).toList
  let path := (trimMatchesSet
    (fun c => c = '\'' ∨ c = '"' ∨ c = ';' ∨ c = ' ')
    (trimChars ((splitOnSub "from".toList text).getLastD []))).asString
  let syms :=
    if text.contains '{' then
      ((((text.splitOn '{').getD 1 []).splitOn '}').headD [] |>.splitOn ',').filterMap
        (fun s =>
          let piece := trimChars ((splitOnSub " as ".toList s).headD [])
          if piece.isEmpty then none else some piece.asString)
    else []
  if path.isEmpty then [] else [{ path := path, symbols := syms, line := n.startRow + 1 }]

/-- `extract_js_node`. -/
def extractJsNode (n : TSNode) (scope : Option String) : Extraction :=
  match n.kind with
  | "function_declaration" =>
    match nodeName n with
    | some name => ⟨[mkSym n name .function scope], [], []⟩
    | none => .empty
  | "class_declaration" =>
    match nodeName n with
    | some name => ⟨[mkSym n name .cls none], [], []⟩
    | none => .empty
  | "method_definition" =>
    match nodeName n with
    | some name => ⟨[mkSym n name .method scope], [], []⟩
    | none => .empty
  | "lexical_declaration" => ⟨extractJsVarDecl n scope, [], []⟩
  | "variable_declaration" => ⟨extractJsVarDecl n scope, [], []⟩
  | "import_statement" => ⟨[], extractJsImport n, []⟩
  | "export_statement" => .empty
  | "call_expression" =>
    match getCallName n, scope with
    | some callee, some caller =>
      ⟨[], [], [{ callee := callee, caller := caller, line := n.startRow + 1 }]⟩
    | _, _ => .empty
  | _ => .empty

/-- The TypeScript-specific additions of `extract_ts_node`. -/
def extractTsExtra (n : TSNode) : Extraction :=
  match n.kind with
  | "interface_declaration" =>
    match nodeName n with
    | some name => ⟨[mkSym n name .interface none], [], []⟩
    | none => .empty
  | "type_alias_declaration" =>
    match nodeName n with
    | some name => ⟨[mkSym n name .typeAlias none], [], []⟩
    | none => .empty
  | "enum_declaration" =>
    match nodeName n with
    | some name => ⟨[mkSym n name .enum none], [], []⟩
    | none => .empty
  | _ => .empty

/-- `extract_ts_node`: the JavaScript extraction plus TS-specific kinds. -/
def extractTsNode (n : TSNode) (scope : Option String) : Extraction :=
  (extractJsNode n scope).app (extractTsExtra n)

/-- `extract_generic_node`, driven by the per-language kind tuples. -/
def extractGenericNode (n : TSNode) (scope : Option String)
    (funcKinds importKinds callKinds : List String) : Extraction :=
  let symPart : List ExtractedSymbol :=
    if funcKinds.contains n.kind then
      match nodeName n with
      | some name =>
        [mkSym n name (if scope.isSome then .method else .function) scope]
      | none => []
    else []
  let impPart : List ExtractedImport :=
    if importKinds.contains n.kind then
      [{ path := (trimChars (nodeText n).toList).asString, symbols := [],
         line := n.startRow + 1 }]
    else []
  let callPart : List ExtractedCall :=
    if callKinds.contains n.kind then
      match getCallName n, scope with
      | some callee, some caller =>
        [{ callee := callee, caller := caller, line := n.startRow + 1 }]
      | _, _ => []
    else []
  ⟨symPart, impPart, callPart⟩

/-- The per-node dispatch of `extract_node` (the first `match lang`). -/
def extractOwn (lang : SupportedLanguage) (n : TSNode) (scope : Option String) :
    Extraction :=
  match lang with
  | .rust => extractRustNode n scope
  | .python => extractPythonNode n scope
  | .javascript => extractJsNode n scope
  | .tsx => extractJsNode n scope
  | .typescript => extractTsNode n scope
  | .go => extractGenericNode n scope
      ["function_declaration", "method_declaration"] ["import_declaration"]
      ["call_expression"]
  | .java => extractGenericNode n scope
      ["method_declaration", "class_declaration", "interface_declaration"]
      ["import_declaration"] ["method_invocation"]
  | .csharp => extractGenericNode n scope
      ["method_declaration", "class_declaration", "interface_declaration"]
      ["using_directive"] ["invocation_expression"]
  | .ruby => extractGenericNode n scope
      ["method", "class", "module"] ["call"] ["call", "method_call"]
  | .cpp => extractGenericNode n scope
      ["function_definition", "class_specifier"] ["preproc_include"]
      ["call_expression"]
  | .swift => extractGenericNode n scope
      ["function_definition", "class_specifier"] ["preproc_include"]
      ["call_expression"]

/-- The scope a node opens for its children (the second `match lang` of
`extract_node`). -/
def newScopeOf (lang : SupportedLanguage) (n : TSNode) : Option String :=
  match lang with
  | .rust =>
    match n.kind with
    | "impl_item" => getRustImplName n
    | "function_item" => nodeName n
    | "struct_item" => nodeName n
    | "enum_item" => nodeName n
    | "trait_item" => nodeName n
    | _ => none
  | .python =>
    match n.kind with
    | "class_definition" => nodeName n
    | "function_definition" => nodeName n
    | _ => none
  | .javascript | .tsx | .typescript =>
    match n.kind with
    | "class_declaration" => nodeName n
    | "function_declaration" => nodeName n
    | _ => none
  | .go =>
    match n.kind with
    | "function_declaration" => nodeName n
    | "method_declaration" => nodeName n
    | _ => none
  | .java | .csharp =>
    match n.kind with
    | "method_declaration" => nodeName n
    | "class_declaration" => nodeName n
    | _ => none
  | .ruby =>
    match n.kind with
    | "method" => nodeName n
    | "class" => nodeName n
    | "module" => nodeName n
    | _ => none
  | .cpp | .swift =>
    match n.kind with
    | "function_definition" => nodeName n
    | "class_specifier" => nodeName n
    | _ => none

mutual

/-- `extract_node`: the node's own records, then the children under the
possibly updated scope. -/
def extractNode (lang : SupportedLanguage) : TSNode → Option String → Extraction
  | .mk k sr er tx ft cs, scope =>
    let own := extractOwn lang (.mk k sr er tx ft cs) scope
    let scope2 := (newScopeOf lang (.mk k sr er tx ft cs)).or scope
    own.app (extractList lang cs scope2)

/-- The child recursion of `extract_node`. -/
def extractList (lang : SupportedLanguage) : List TSNode → Option String → Extraction
  | [], _ => .empty
  | c :: cs, scope => (extractNode lang c scope).app (extractList lang cs scope)

end

/-- `extract_file` on an already parsed tree: extraction starts with no
enclosing scope. Path dispatch and parsing are external. -/
def extractFile (lang : SupportedLanguage) (root : TSNode) : Extraction :=
  extractNode lang root none

/-- `a` is `n` itself or a node somewhere below `n`. -/
inductive SubNode : TSNode → TSNode → Prop where
  | refl (n : TSNode) : SubNode n n
  | child {a c : TSNode} {k : String} {sr er : Nat} {tx : String}
      {ft : Option String} {cs : List TSNode} :
      c ∈ cs → SubNode a c → SubNode a (.mk k sr er tx ft cs)

/-- Well-formed row ranges: a node spans its children. -/
inductive WFRanges : TSNode → Prop where
  | mk {k : String} {sr er : Nat} {tx : String} {ft : Option String}
      {cs : List TSNode} :
      sr ≤ er →
      (∀ c ∈ cs, sr ≤ c.startRow ∧ c.endRow ≤ er) →
      (∀ c ∈ cs, WFRanges c) →
      WFRanges (.mk k sr er tx ft cs)

mutual

/-- Decidable check for `WFRanges`. -/
def wfRangesB : TSNode → Bool
  | .mk _ sr er _ _ cs =>
    decide (sr ≤ er) &&
      cs.all (fun c => decide (sr ≤ c.startRow) && decide (c.endRow ≤ er)) &&
      wfRangesList cs

/-- `wfRangesB` on all elements of a list. -/
def wfRangesList : List TSNode → Bool
  | [] => true
  | c :: cs => wfRangesB c && wfRangesList cs

end

mutual

/-- All nodes of a tree, the node itself included. -/
def allNodes : TSNode → List TSNode
  | .mk k sr er tx ft cs => .mk k sr er tx ft cs :: allNodesList cs

/-- `allNodes` over a list of trees. -/
def allNodesList : List TSNode → List TSNode
  | [] => []
  | c :: cs => allNodes c ++ allNodesList cs

end

/-- A name-field identifier child used by the demonstration trees. -/
def nameChildAt (r : Nat) (s : String) : TSNode :=
  .mk "identifier" r r s (some "name") []

/-- Demonstration function node: `fn new` containing a call `Self::helper()`. -/
def c7FnNew : TSNode :=
  .mk "function_item" 4 6 "fn new() -> Foo { Self::helper() }" none
    [nameChildAt 4 "new",
     .mk "call_expression" 5 5 "Self::helper()" none
       [.mk "identifier" 5 5 "Self::helper" (some "function") []]]

/-- Demonstration impl node: `impl Foo` holding `fn new`. -/
def c7ImplFoo : TSNode :=
  .mk "impl_item" 3 9 "impl Foo { fn new() -> Foo { Self::helper() } }" none
    [.mk "type_identifier" 3 3 "Foo" (some "type") [], c7FnNew]

/-- Demonstration tree: `struct Foo` plus `impl Foo { fn new }`. -/
def c7Tree : TSNode :=
  .mk "source_file" 0 10 "struct Foo; impl Foo { fn new() -> Foo { Self::helper() } }" none
    [.mk "struct_item" 0 2 "struct Foo;" none [nameChildAt 0 "Foo"], c7ImplFoo]

/-- Demonstration function node: `fn inner`, nested below `fn outer`. -/
def c8FnInner : TSNode :=
  .mk "function_item" 1 3 "fn inner() {}" none [nameChildAt 1 "inner"]

/-- Demonstration function node: `fn outer` holding `fn inner`. -/
def c8FnOuter : TSNode :=
  .mk "function_item" 0 5 "fn outer() { fn inner() {} }" none
    [nameChildAt 0 "outer", c8FnInner]

/-- Demonstration tree: a nested function and no impl block anywhere. -/
def c8Tree : TSNode :=
  .mk "source_file" 0 5 "fn outer() { fn inner() {} }" none [c8FnOuter]

/-! ### Helper lemmas on the string model -/

theorem findIdx?_append_marker (c : Char) (nm r : List Char) (h : c ∉ nm) :
    ∀ s : Nat, List.findIdx? (fun x => decide (x = c)) (nm ++ c :: r) s =
      some (s + nm.length) := by
  induction nm with
  | nil => intro s; simp [List.findIdx?]
  | cons a t ih =>
    intro s
    have ha : a ≠ c := fun hac => h (hac ▸ List.mem_cons_self a t)
    have ht : c ∉ t := fun hct => h (List.mem_cons_of_mem a hct)
    simp only [List.cons_append, List.findIdx?, List.append_eq]
    rw [if_neg (show ¬(decide (a = c) = true) by simpa using ha)]
    rw [ih ht (s + 1)]
    simp only [List.length_cons]
    congr 1
    omega

theorem findCharIdx_append_marker (c : Char) (nm r : List Char) (h : c ∉ nm) :
    findCharIdx c (nm ++ c :: r) = some nm.length := by
  unfold findCharIdx
  rw [findIdx?_append_marker c nm r h 0]
  simp

theorem rfindCharIdx_last (c : Char) (xs : List Char) :
    rfindCharIdx c (xs ++ [c]) = some xs.length := by
  simp [rfindCharIdx, List.findIdx?]

theorem sliceChk_middle (nm ps tail : List Char) :
    sliceChk (nm ++ '(' :: (ps ++ tail)) (nm.length + 1) (nm.length + 1 + ps.length) =
      some ps := by
  have hlen : (nm ++ '(' :: (ps ++ tail)).length = nm.length + 1 + ps.length + tail.length := by
    simp; omega
  have htake : (nm ++ '(' :: (ps ++ tail)).take (nm.length + 1 + ps.length) =
      nm ++ '(' :: ps := by
    have : nm ++ '(' :: (ps ++ tail) = (nm ++ '(' :: ps) ++ tail := by simp
    rw [this]
    have hl : (nm ++ '(' :: ps).length = nm.length + 1 + ps.length := by simp; omega
    rw [← hl, List.take_left]
  unfold sliceChk
  rw [if_pos]
  · rw [htake]
    congr 1
    have : nm ++ '(' :: ps = (nm ++ ['(']) ++ ps := by simp
    rw [this]
    have hl : (nm ++ ['(']).length = nm.length + 1 := by simp
    rw [← hl, List.drop_left]
  · constructor
    · omega
    · rw [hlen]; omega

theorem splitOn_all_mem {p : Char → Bool} (ps : List Char) (hws : ∀ c ∈ ps, p c)
    (hSep : p ',' = false) :
    ∀ piece ∈ ps.splitOn ',', ∀ c ∈ piece, p c := by
  induction ps with
  | nil =>
    intro piece hp c hc
    simp [List.splitOn] at hp
    subst hp
    simp at hc
  | cons a t ih =>
    intro piece hp c hc
    have ha : p a := hws a (List.mem_cons_self a t)
    have hat : a ≠ ',' := fun h => by rw [h] at ha; rw [hSep] at ha; exact Bool.noConfusion ha
    have ht : ∀ x ∈ t, p x := fun x hx => hws x (List.mem_cons_of_mem a hx)
    simp only [List.splitOn, List.splitOnP_cons] at hp
    rw [if_neg (by simpa using hat)] at hp
    rcases hr : List.splitOnP (fun x => x == ',') t with _ | ⟨hd, tl⟩
    · exact absurd hr (List.splitOnP_ne_nil _ t)
    · rw [hr] at hp
      simp only [List.modifyHead] at hp
      rcases List.mem_cons.mp hp with hp1 | hp1
      · subst hp1
        rcases List.mem_cons.mp hc with hc1 | hc1
        · exact hc1 ▸ ha
        · exact ih ht hd (by rw [List.splitOn, hr]; exact List.mem_cons_self hd tl) c hc1
      · exact ih ht piece (by rw [List.splitOn, hr]; exact List.mem_cons_of_mem hd hp1) c hc

theorem trimChars_of_all_ws (l : List Char) (h : ∀ c ∈ l, c.isWhitespace) :
    trimChars l = [] := by
  unfold trimChars
  rw [List.dropWhile_eq_nil_iff.mpr (fun c hc => h c hc)]
  rfl

theorem naiveSplit_guard_redundant (ps : List Char) :
    (if (trimChars ps).isEmpty = true then []
     else (ps.splitOn ',').filterMap paramOfPiece) =
      (ps.splitOn ',').filterMap paramOfPiece := by
  by_cases hE : (trimChars ps).isEmpty = true
  · rw [if_pos hE]
    have hws : ∀ c ∈ ps, c.isWhitespace := by
      have h1 : trimChars ps = [] := by
        cases h : trimChars ps with
        | nil => rfl
        | cons a t => rw [h] at hE; simp [List.isEmpty] at hE
      unfold trimChars at h1
      have h2 : (ps.dropWhile Char.isWhitespace) = [] := by
        rcases List.reverse_eq_nil_iff.mp h1 with h3
        rcases List.dropWhile_eq_nil_iff.mp h3 with h4
        by_contra hne
        rcases List.exists_cons_of_ne_nil hne with ⟨a, t, he⟩
        have ha : ¬ a.isWhitespace := by
          have := List.head?_dropWhile_not Char.isWhitespace ps
          rw [he] at this
          simpa using this
        exact ha (by simpa using h4 a (by rw [he]; simp))
      intro c hc
      have : ps = ps.takeWhile Char.isWhitespace ++ ps.dropWhile Char.isWhitespace :=
        (List.takeWhile_append_dropWhile Char.isWhitespace ps).symm
      rw [h2, List.append_nil] at this
      rw [this] at hc
      exact List.mem_takeWhile_imp hc
    symm
    rw [List.filterMap_eq_nil_iff]
    intro piece hp
    have hall : ∀ c ∈ piece, c.isWhitespace :=
      splitOn_all_mem ps hws (by decide) piece hp
    unfold paramOfPiece
    rw [trimChars_of_all_ws piece hall]
    rfl
  · rw [if_neg hE]

/-! ### C5 / C6 / C10 theorems -/

/-- C5 (amended): `Signature::parse` splits the text between the first `(`
and the last `)` on every comma — nesting in brackets or generics is ignored —
and splits each piece at its first `:` into name and possibly empty type.
Stated for any trim-stable input `NAME ( PARAMS )` whose name part contains
no `(`. -/
theorem sigParse_naive_comma_split (nm ps : List Char) (h : '(' ∉ nm)
    (hTrim : trimChars (nm ++ '(' :: (ps ++ [')'])) = nm ++ '(' :: (ps ++ [')'])) :
    Signature.parseRun (nm ++ '(' :: (ps ++ [')'])).asString =
      .value (some { name := cleanupName nm
                     params := naiveSplitParams ps
                     return_type := none }) := by
  have hlist : ((nm ++ '(' :: (ps ++ [')'])).asString).toList = nm ++ '(' :: (ps ++ [')']) :=
    rfl
  have hsplit : nm ++ '(' :: (ps ++ [')']) = (nm ++ '(' :: ps) ++ [')'] := by simp
  have hclose : rfindCharIdx ')' (nm ++ '(' :: (ps ++ [')'])) =
      some (nm.length + 1 + ps.length) := by
    rw [hsplit, rfindCharIdx_last]
    congr 1
    simp
    omega
  have hslice : sliceChk (nm ++ '(' :: (ps ++ [')'])) (nm.length + 1)
      (nm.length + 1 + ps.length) = some ps := sliceChk_middle nm ps [')']
  have hlen : (nm ++ '(' :: (ps ++ [')'])).length = nm.length + 1 + ps.length + 1 := by
    simp
    omega
  simp only [Signature.parseRun, hlist, hTrim,
    findCharIdx_append_marker '(' nm (ps ++ [')']) h, hclose, hslice,
    List.take_left, hlen]
  simp only [lt_self_iff_false, if_false]
  rw [naiveSplit_guard_redundant ps]
  rfl

/-- C5 counterexample: at `"f(x: Pair<A, B>)"` the implementation splits
inside the generic argument list and produces two parameters, while the
claimed top-level split produces the single parameter `x : Pair<A, B>`. -/
theorem sigParse_generic_comma_cex :
    paramsOfRun (Signature.parseRun "f(x: Pair<A, B>)") =
        [{ name := "x", typ := "Pair<A" }, { name := "B>", typ := "" }] ∧
      specSplitParams "x: Pair<A, B>".toList =
        [{ name := "x", typ := "Pair<A, B>" }] ∧
      paramsOfRun (Signature.parseRun "f(x: Pair<A, B>)") ≠
        specSplitParams "x: Pair<A, B>".toList := by
  refine ⟨by decide, by decide, by decide⟩

/-- C5 witness: the amended split theorem applied to
`validate(input: &str, strict: bool)`. -/
theorem sigParse_naive_comma_split_witness :
    ('(' ∉ "validate".toList) ∧
      Signature.parseRun ("validate".toList ++ '(' ::
          ("input: &str, strict: bool".toList ++ [')'])).asString =
        .value (some { name := cleanupName "validate".toList
                       params := naiveSplitParams "input: &str, strict: bool".toList
                       return_type := none }) :=
  ⟨by decide, sigParse_naive_comma_split "validate".toList
    "input: &str, strict: bool".toList (by decide) (by decide)⟩

/-- C6: `Signature::diff` is commutative-complement — the added parameters of
`diff(old, new)` are exactly the removed parameters of `diff(new, old)` and
vice versa. -/
theorem sigDiff_commutative_complement (old new : Signature) :
    (old.diff new).1 = (new.diff old).2 ∧ (old.diff new).2 = (new.diff old).1 :=
  ⟨rfl, rfl⟩

/-- C10: `Signature::parse` is not total — on `")("`, where the last `)`
precedes the first `(`, the slice `&sig[paren_idx + 1..close_paren]` has its
start index after its end index and the Rust code panics. -/
theorem sigParse_panics_on_reversed_parens :
    Signature.parseRun ")(" = .panicked := by
  decide

/-! ### C4 theorems -/

theorem splitAtLastCh_not_mem (sep : Char) (l : List Char) (h : sep ∉ l) :
    splitAtLastCh sep l = none := by
  induction l with
  | nil => rfl
  | cons c rest ih =>
    have hc : c ≠ sep := fun hcs => h (hcs ▸ List.mem_cons_self c rest)
    have hr : sep ∉ rest := fun hm => h (List.mem_cons_of_mem c hm)
    unfold splitAtLastCh
    rw [ih hr, if_neg hc]

theorem splitAtLastCh_append (sep : Char) (a b : List Char) (h : sep ∉ b) :
    splitAtLastCh sep (a ++ sep :: b) = some (a, b) := by
  induction a with
  | nil =>
    rw [List.nil_append]
    simp only [splitAtLastCh]
    rw [splitAtLastCh_not_mem sep b h]
    simp
  | cons c rest ih =>
    rw [List.cons_append]
    simp only [splitAtLastCh]
    rw [ih]

/-- C4 (amended): `CodeGraph::save` writes to a temporary file obtained by
replacing the extension of the final path component with `tmp` (via
`Path::with_extension`), then fsyncs it and renames it onto the target.
Saving `dir/stem.ext` therefore uses `dir/stem.tmp`, not `dir/stem.ext.tmp`. -/
theorem save_uses_replaced_extension (dir stem ext : List Char) (bytes : List Nat)
    (h1 : '/' ∉ stem) (h2 : '/' ∉ ext) (h3 : '.' ∉ ext) (h4 : stem ≠ []) :
    saveOps ((dir ++ '/' :: (stem ++ '.' :: ext)).asString) bytes =
      [.create ((dir ++ '/' :: (stem ++ ".tmp".toList)).asString),
       .writeAll ((dir ++ '/' :: (stem ++ ".tmp".toList)).asString) bytes,
       .syncAll ((dir ++ '/' :: (stem ++ ".tmp".toList)).asString),
       .rename ((dir ++ '/' :: (stem ++ ".tmp".toList)).asString)
         ((dir ++ '/' :: (stem ++ '.' :: ext)).asString)] := by
  have hb : '/' ∉ stem ++ '.' :: ext := by
    intro hm
    rcases List.mem_append.mp hm with hm | hm
    · exact h1 hm
    · rcases List.mem_cons.mp hm with hm | hm
      · exact absurd hm.symm (by decide)
      · exact h2 hm
  have hsplit : splitDirFile (dir ++ '/' :: (stem ++ '.' :: ext)) =
      (dir ++ ['/'], stem ++ '.' :: ext) := by
    unfold splitDirFile
    rw [splitAtLastCh_append '/' dir (stem ++ '.' :: ext) hb]
  have hstem : fileStem (stem ++ '.' :: ext) = stem := by
    unfold fileStem
    rw [splitAtLastCh_append '.' stem ext h3]
    cases stem with
    | nil => exact absurd rfl h4
    | cons c rest => rfl
  have hto : ((dir ++ '/' :: (stem ++ '.' :: ext)).asString).toList =
      dir ++ '/' :: (stem ++ '.' :: ext) := rfl
  unfold saveOps withExtension
  rw [hto, hsplit]
  simp only [hstem]
  have : dir ++ ['/'] ++ stem ++ '.' :: "tmp".toList =
      dir ++ '/' :: (stem ++ ".tmp".toList) := by simp
  rw [this]

/-- C4 counterexample: the temporary file for target `graph.bin` is
`graph.tmp` (`with_extension` replaces the extension), not the claimed
`graph.bin.tmp` obtained by appending `.tmp` to the full path. -/
theorem save_tmp_name_cex :
    withExtension "graph.bin" "tmp" = "graph.tmp" ∧
      withExtension "graph.bin" "tmp" ≠ "graph.bin" ++ ".tmp" ∧
      (saveOps "graph.bin" []).head? = some (.create "graph.tmp") := by
  refine ⟨by decide, by decide, by decide⟩

/-- C4 witness: the amended save theorem applied to `anchor/graph.bin`. -/
theorem save_uses_replaced_extension_witness :
    ('/' ∉ "graph".toList) ∧ ('/' ∉ "bin".toList) ∧ ('.' ∉ "bin".toList) ∧
      ("graph".toList ≠ []) ∧
      saveOps (("anchor".toList ++ '/' ::
          ("graph".toList ++ '.' :: "bin".toList)).asString) [7, 7] =
        [.create (("anchor".toList ++ '/' ::
            ("graph".toList ++ ".tmp".toList)).asString),
         .writeAll (("anchor".toList ++ '/' ::
            ("graph".toList ++ ".tmp".toList)).asString) [7, 7],
         .syncAll (("anchor".toList ++ '/' ::
            ("graph".toList ++ ".tmp".toList)).asString),
         .rename (("anchor".toList ++ '/' ::
            ("graph".toList ++ ".tmp".toList)).asString)
           (("anchor".toList ++ '/' ::
            ("graph".toList ++ '.' :: "bin".toList)).asString)] :=
  ⟨by decide, by decide, by decide, by decide,
   save_uses_replaced_extension "anchor".toList "graph".toList "bin".toList
     [7, 7] (by decide) (by decide) (by decide) (by decide)⟩

/-! ### C9 theorems -/

/-- C9 (amended): a connection whose request line fails to decode — malformed
JSON or an unknown command — receives no response frame at all: `handle_client`
propagates the serde error with `?` before anything is written, and the
connection is closed silently. A connection whose line decodes receives
exactly one frame, the response of `process_request`. -/
theorem handleClient_frames_decode (process : Request → Response) :
    (∀ e : String, handleClientFrames (.error e) process = []) ∧
      (∀ req : Request, handleClientFrames (.ok req) process = [process req]) :=
  ⟨fun _ => rfl, fun _ => rfl⟩

/-- C9 counterexample: on a malformed request line the daemon writes zero
frames, while the claim requires exactly one frame with status `error`. -/
theorem handleClient_malformed_cex :
    handleClientFrames (.error "expected value at line 1 column 1")
        (fun _ => Response.pong) = [] ∧
      ([] : List Response).length ≠ 1 := by
  refine ⟨rfl, by decide⟩

/-! ### C1 lemmas: persistence roundtrip -/

theorem setRemovedAt_append (xs : List NodeData) (y : NodeData) :
    setRemovedAt (xs ++ [y]) xs.length = xs ++ [{ y with removed := true }] := by
  induction xs with
  | nil => rfl
  | cons a t ih =>
    simp only [List.cons_append, setRemovedAt, List.length_cons, List.append_eq, ih]

theorem findIdx?_none_of_all_false {p : NodeData → Bool} (l : List NodeData)
    (h : ∀ x ∈ l, p x = false) : ∀ s, List.findIdx? p l s = none := by
  induction l with
  | nil => intro s; rfl
  | cons a t ih =>
    intro s
    have hpa := h a (List.mem_cons_self a t)
    simp only [List.findIdx?, hpa, Bool.false_eq_true, if_false]
    exact ih (fun x hx => h x (List.mem_cons_of_mem a hx)) (s + 1)

/-- The canonicity of file nodes and the tombstone-before-reuse ordering make
the node loop of `from_serializable` reproduce the node vector exactly. -/
theorem rebuildNodes_spec (E : List (Nat × Nat × EdgeData)) :
    ∀ (rest pre : List NodeData),
    (∀ n ∈ pre ++ rest, n.kind = .file →
        n.name = n.file_path ∧ n.line_start = 0 ∧ n.line_end = 0 ∧
          n.code_snippet = "") →
    (pre ++ rest).Pairwise (fun a b =>
        b.kind = .file → a.kind = .file → a.file_path = b.file_path →
          a.removed = true) →
    rebuildNodes rest { nodes := pre, edges := E } (List.range pre.length) =
      ({ nodes := pre ++ rest, edges := E }, List.range (pre ++ rest).length) := by
  intro rest
  induction rest with
  | nil => intro pre _ _; simp only [rebuildNodes, List.append_nil]
  | cons node rest' ih =>
    intro pre hcanon hpair
    have hmem_node : node ∈ pre ++ node :: rest' := by simp
    have hassoc : (pre ++ [node]) ++ rest' = pre ++ node :: rest' := by simp
    have hrange : List.range pre.length ++ [pre.length] =
        List.range (pre ++ [node]).length := by
      simp [List.range_succ]
    have htail := ih (pre ++ [node]) (by rw [hassoc]; exact hcanon)
      (by rw [hassoc]; exact hpair)
    have hstep : rebuildNodes (node :: rest') { nodes := pre, edges := E }
        (List.range pre.length) =
        rebuildNodes rest' { nodes := pre ++ [node], edges := E }
          (List.range pre.length ++ [pre.length]) := by
      obtain ⟨nm, kd, fp, ls, le2, cs, rm⟩ := node
      by_cases hk : kd = NodeKind.file
      · subst hk
        obtain ⟨hnm, hls, hle, hcs⟩ := hcanon _ hmem_node rfl
        simp only at hnm hls hle hcs
        have hnone : List.findIdx?
            (fun n => n.kind == NodeKind.file && n.file_path == fp && !n.removed)
            pre = none := by
          apply findIdx?_none_of_all_false pre _ 0
          intro a ha
          have hR := ((List.pairwise_append.mp hpair).2.2) a ha _
            (List.mem_cons_self _ rest')
          by_cases hak : a.kind = NodeKind.file
          · by_cases hap : a.file_path = fp
            · have : a.removed = true := hR rfl hak hap
              simp [this]
            · simp [hap]
          · have : (a.kind == NodeKind.file) = false := by simpa using hak
            simp [this]
        cases rm <;>
          simp only [rebuildNodes, CodeGraph.addFile, CodeGraph.markRemoved, hnone,
            beq_self_eq_true, if_true, reduceIte, setRemovedAt_append, mkFileNode,
            Bool.false_eq_true, if_false, hnm, hls, hle, hcs]
      · have hk2 : (kd == NodeKind.file) = false := by simpa using hk
        cases rm <;>
          simp only [rebuildNodes, CodeGraph.addSymbol, CodeGraph.markRemoved, hk2,
            Bool.false_eq_true, if_false, if_true, setRemovedAt_append]
    rw [hstep, hrange, htail, hassoc]

/-- With a duplicate-free edge list and in-range endpoints, the edge loop of
`from_serializable` reproduces the edge list exactly (the index map is the
identity). -/
theorem rebuildEdges_spec (nodes : List NodeData) :
    ∀ (rest pre : List (Nat × Nat × EdgeData)),
    (pre ++ rest).Nodup →
    (∀ e ∈ rest, e.1 < nodes.length ∧ e.2.1 < nodes.length) →
    rebuildEdges (List.range nodes.length) rest { nodes := nodes, edges := pre } =
      { nodes := nodes, edges := pre ++ rest } := by
  intro rest
  induction rest with
  | nil => intro pre _ _; simp [rebuildEdges]
  | cons e rest' ih =>
    intro pre hnd hrange
    obtain ⟨s, t, d⟩ := e
    have hr := hrange (s, t, d) (List.mem_cons_self _ _)
    have hs : (List.range nodes.length).getD s 0 = s := by
      rw [List.getD_eq_getElem?_getD, List.getElem?_range hr.1]
      rfl
    have ht : (List.range nodes.length).getD t 0 = t := by
      rw [List.getD_eq_getElem?_getD, List.getElem?_range hr.2]
      rfl
    simp only [rebuildEdges, hs, ht]
    have hnotmem : (s, t, d) ∉ pre := by
      intro hmem
      have hdisj := List.disjoint_of_nodup_append hnd
      exact hdisj hmem (List.mem_cons_self _ _)
    have hadd : CodeGraph.addEdge { nodes := nodes, edges := pre } s t d.kind =
        { nodes := nodes, edges := pre ++ [(s, t, d)] } := by
      unfold CodeGraph.addEdge
      rw [if_neg (by simpa using hnotmem)]
    rw [hadd]
    have hassoc : (pre ++ [(s, t, d)]) ++ rest' = pre ++ (s, t, d) :: rest' := by simp
    have := ih (pre ++ [(s, t, d)]) (by rw [hassoc]; exact hnd)
      (fun x hx => hrange x (List.mem_cons_of_mem _ hx))
    rw [this, hassoc]

/-- Roundtrip equality: on a well-formed graph, `from_serializable` after
`to_serializable` is the identity. -/
theorem roundtrip_eq (g : CodeGraph) (h : WFGraph g) :
    fromSerializable g.toSerializable = g := by
  obtain ⟨hcanon, hpair, hnd, hrng⟩ := h
  have h1 := rebuildNodes_spec [] g.nodes [] (by simpa using hcanon) (by simpa using hpair)
  simp only [List.nil_append, List.length_nil, List.range_zero] at h1
  have h2 := rebuildEdges_spec g.nodes g.edges [] (by simpa using hnd)
    (fun e he => hrng e he)
  simp only [List.nil_append] at h2
  show rebuildEdges (rebuildNodes g.nodes { nodes := [], edges := [] } []).2 g.edges
    (rebuildNodes g.nodes { nodes := [], edges := [] } []).1 = g
  rw [h1]
  show rebuildEdges (List.range g.nodes.length) g.edges { nodes := g.nodes, edges := [] } = g
  rw [h2]

theorem mem_insertBy {le : α → α → Bool} {x y : α} {l : List α}
    (h : x ∈ insertBy le y l) : x = y ∨ x ∈ l := by
  induction l with
  | nil => simpa [insertBy] using h
  | cons a t ih =>
    simp only [insertBy] at h
    by_cases hc : le y a
    · rw [if_pos hc] at h
      simpa using h
    · rw [if_neg hc] at h
      rcases List.mem_cons.mp h with h1 | h1
      · exact Or.inr (h1 ▸ List.mem_cons_self a t)
      · rcases ih h1 with h2 | h2
        · exact Or.inl h2
        · exact Or.inr (List.mem_cons_of_mem a h2)

theorem mem_sortBy {le : α → α → Bool} {x : α} {l : List α}
    (h : x ∈ sortBy le l) : x ∈ l := by
  induction l with
  | nil => simp [sortBy] at h
  | cons a t ih =>
    have : sortBy le (a :: t) = insertBy le a (sortBy le t) := rfl
    rw [this] at h
    rcases mem_insertBy h with h1 | h1
    · exact h1 ▸ List.mem_cons_self a t
    · exact List.mem_cons_of_mem a (ih h1)

/-- Every search result arises from a visible non-file node: tombstoned
nodes are invisible to `search`. -/
theorem search_from_visible (g : CodeGraph) (q : String) (k : Nat) :
    ∀ r ∈ g.search q k, ∃ i, g.visibleAt i = true ∧ r = g.toSearchResult i := by
  intro r hr
  unfold CodeGraph.search at hr
  rcases List.mem_map.mp hr with ⟨i, hi, hri⟩
  refine ⟨i, ?_, hri.symm⟩
  have hi2 := mem_sortBy (List.mem_of_mem_take hi)
  have hi3 := (List.mem_filter.mp hi2).2
  cases hn : g.nodes[i]? with
  | none => rw [hn] at hi3; exact absurd hi3 (by simp)
  | some n =>
    rw [hn] at hi3
    unfold CodeGraph.visibleAt
    rw [hn]
    simp only [Bool.and_eq_true] at hi3
    exact hi3.1.2

/-! ### C1 theorem -/

/-- C1: for every well-formed graph, saving and loading (modelled as
`from_serializable ∘ to_serializable`, with bincode and the file system
assumed faithful) reproduces the graph exactly: identical `stats()`,
identical visible node and edge multisets, tombstones round-tripped
bit-exactly, and tombstoned nodes still invisible to `search` after load. -/
theorem graph_save_load_roundtrip (g : CodeGraph) (h : WFGraph g) :
    fromSerializable g.toSerializable = g ∧
    (fromSerializable g.toSerializable).stats = g.stats ∧
    List.Perm (fromSerializable g.toSerializable).visibleNodes g.visibleNodes ∧
    List.Perm (fromSerializable g.toSerializable).visibleEdges g.visibleEdges ∧
    (fromSerializable g.toSerializable).nodes = g.nodes ∧
    (∀ q k, (fromSerializable g.toSerializable).search q k = g.search q k) ∧
    (∀ q k r, r ∈ (fromSerializable g.toSerializable).search q k →
      ∃ i, (fromSerializable g.toSerializable).visibleAt i = true ∧
        r = (fromSerializable g.toSerializable).toSearchResult i) := by
  have he := roundtrip_eq g h
  rw [he]
  exact ⟨rfl, rfl, List.Perm.refl _, List.Perm.refl _, rfl, fun _ _ => rfl,
    fun q k r hr => search_from_visible g q k r hr⟩

/-- C1 witness: the roundtrip theorem applied to `c1DemoGraph`. -/
theorem graph_save_load_roundtrip_witness :
    WFGraph c1DemoGraph ∧ fromSerializable c1DemoGraph.toSerializable = c1DemoGraph :=
  ⟨by decide, (graph_save_load_roundtrip c1DemoGraph (by decide)).1⟩

/-! ### C3 theorems -/

/-- C3 (amended): the intents `modify` and `refactor` are not matched by the
dispatch in `get_context_for_change`; they fall to the default arm and behave
exactly as `explore` — `used_by` and `uses` are populated, `tests` and
`edits` are not — the response differing from the `explore` response only in
the echoed intent string. -/
theorem ctx_modify_refactor_default_to_explore (fs : String → Option String)
    (g : CodeGraph) (q : String) (ns : Option String) :
    getContextForChange fs g q "modify" ns =
      (getContextForChange fs g q "explore" ns).map
        (fun r => { r with intent := "modify" }) ∧
    getContextForChange fs g q "refactor" ns =
      (getContextForChange fs g q "explore" ns).map
        (fun r => { r with intent := "refactor" }) := by
  constructor <;>
    (unfold getContextForChange
     by_cases h : (g.search q 5).isEmpty <;> simp [h, explore, RunResult.map])

/-- C3 counterexample: on a concrete graph where `validate` has one
dependent, the intent `modify` leaves `edits` and `tests` empty (the claim
requires one edit per dependent and the related tests), while the intent
`change` on the same input does populate both. -/
theorem ctx_modify_cex :
    RunResult.map (fun r => (r.used_by.length, r.edits, r.tests))
        (getContext emptyFs ctxDemoGraph "validate" "modify") =
      .value (1, [], []) ∧
    RunResult.map (fun r => (r.edits.length, r.tests.length))
        (getContext emptyFs ctxDemoGraph "validate" "change") =
      .value (1, 1) := by
  refine ⟨by decide, by decide⟩

/-! ### C2 lemmas: lines, joins and splits at the byte level -/

theorem interNl_eq_intercalate : ∀ ps : List (List Nat),
    interNl ps = [(10 : Nat)].intercalate ps
  | [] => by simp [interNl, List.intercalate]
  | [p] => by simp [interNl, List.intercalate]
  | p :: q :: ps => by
    have ih := interNl_eq_intercalate (q :: ps)
    simp only [List.intercalate] at ih ⊢
    show p ++ 10 :: interNl (q :: ps) = (List.intersperse [10] (p :: q :: ps)).flatten
    rw [List.intersperse_cons_cons, List.flatten_cons, List.flatten_cons, ih]
    simp

theorem interNl_splitOn (s : List Nat) : interNl (s.splitOn 10) = s := by
  rw [interNl_eq_intercalate, List.intercalate_splitOn]

theorem interNl_append_le : ∀ (a t : List (List Nat)),
    (interNl a).length ≤ (interNl (a ++ t)).length
  | [], t => by simp [interNl]
  | [p], t => by
    cases t with
    | nil => simp
    | cons u t' => simp [interNl]
  | p :: q :: a, t => by
    have ih := interNl_append_le (q :: a) t
    simp only [interNl, List.cons_append, List.append_eq, List.length_append,
      List.length_cons] at ih ⊢
    omega

theorem interNl_take_le (k : Nat) (ps : List (List Nat)) :
    (interNl (ps.take k)).length ≤ (interNl ps).length := by
  have := interNl_append_le (ps.take k) (ps.drop k)
  rwa [List.take_append_drop] at this

theorem interNl_dropLast_le (ps : List (List Nat)) :
    (interNl ps.dropLast).length ≤ (interNl ps).length := by
  rcases List.eq_nil_or_concat ps with h | ⟨a, b, h⟩
  · subst h; exact Nat.le_refl _
  · subst h
    simp only [List.concat_eq_append, List.dropLast_concat]
    exact interNl_append_le a [b]

theorem stripCrB_len_le (l : List Nat) : (stripCrB l).length ≤ l.length := by
  unfold stripCrB
  by_cases h : l.getLast? = some 13
  · rw [if_pos h]; exact (List.length_dropLast l) ▸ Nat.sub_le _ _
  · rw [if_neg h]

theorem interNl_forall2_le : ∀ {qs ps : List (List Nat)},
    List.Forall₂ (fun a b => a.length ≤ b.length) qs ps →
    (interNl qs).length ≤ (interNl ps).length := by
  intro qs ps h
  induction h with
  | nil => exact Nat.le_refl _
  | cons hab htail ih =>
    rename_i a b qs' ps'
    cases htail with
    | nil => simpa [interNl] using hab
    | cons hcd htail' =>
      rename_i c d qs'' ps''
      show (a ++ 10 :: interNl (c :: qs'')).length ≤
        (b ++ 10 :: interNl (d :: ps'')).length
      have ih2 : (interNl (c :: qs'')).length ≤ (interNl (d :: ps'')).length := ih
      simp only [List.length_append, List.length_cons]
      omega

theorem forall2_len_map_stripCr (l : List (List Nat)) :
    List.Forall₂ (fun a b => a.length ≤ b.length) (l.map stripCrB) l := by
  induction l with
  | nil => exact List.Forall₂.nil
  | cons a t ih => exact List.Forall₂.cons (stripCrB_len_le a) ih

/-- Shape of `rustLinesB` on a nonempty byte string, in terms of the raw
`splitOn` parts. -/
theorem rustLinesB_eq (s : List Nat) (hE : s.isEmpty = false) (lastPc : List Nat)
    (hlast : (s.splitOn 10).getLast? = some lastPc) :
    rustLinesB s = if lastPc.isEmpty then (s.splitOn 10).dropLast.map stripCrB
      else (s.splitOn 10).dropLast.map stripCrB ++ [lastPc] := by
  simp only [rustLinesB, hE, Bool.false_eq_true, if_false, hlast]

theorem splitOn_dropLast_append (s : List Nat) (lastPc : List Nat)
    (hlast : (s.splitOn 10).getLast? = some lastPc) :
    (s.splitOn 10).dropLast ++ [lastPc] = s.splitOn 10 := by
  have hne : s.splitOn 10 ≠ [] := List.splitOnP_ne_nil _ s
  have h1 := List.dropLast_append_getLast hne
  have h2 : (s.splitOn 10).getLast hne = lastPc := by
    have := List.getLast?_eq_getLast (s.splitOn 10) hne
    rw [hlast] at this
    exact (Option.some.injEq _ _).mp this.symm
  rw [← h2]
  exact h1

theorem interNl_rustLinesB_le (s : List Nat) (k : Nat) :
    (interNl ((rustLinesB s).take k)).length ≤ s.length := by
  refine Nat.le_trans (interNl_take_le k (rustLinesB s)) ?_
  have hrec : (interNl (s.splitOn 10)).length = s.length := by
    rw [interNl_splitOn]
  rw [← hrec]
  by_cases hE : s.isEmpty
  · have : rustLinesB s = [] := by unfold rustLinesB; rw [hE]; rfl
    rw [this]
    exact Nat.zero_le _
  · have hE2 : s.isEmpty = false := by simpa using hE
    have hne : s.splitOn 10 ≠ [] := List.splitOnP_ne_nil _ s
    obtain ⟨lastPc, hlast⟩ : ∃ lastPc, (s.splitOn 10).getLast? = some lastPc :=
      ⟨(s.splitOn 10).getLast hne, List.getLast?_eq_getLast _ hne⟩
    rw [rustLinesB_eq s hE2 lastPc hlast]
    by_cases hlp : lastPc.isEmpty
    · rw [if_pos hlp]
      exact Nat.le_trans
        (interNl_forall2_le (forall2_len_map_stripCr (s.splitOn 10).dropLast))
        (interNl_dropLast_le (s.splitOn 10))
    · rw [if_neg hlp]
      calc (interNl ((s.splitOn 10).dropLast.map stripCrB ++ [lastPc])).length
          ≤ (interNl ((s.splitOn 10).dropLast ++ [lastPc])).length := by
            refine interNl_forall2_le ?_
            exact List.rel_append (forall2_len_map_stripCr _)
              (List.Forall₂.cons (Nat.le_refl _) List.Forall₂.nil)
        _ = (interNl (s.splitOn 10)).length := by
            rw [splitOn_dropLast_append s lastPc hlast]

theorem splitOn_pieces_no_sep (s : List Nat) :
    ∀ piece ∈ s.splitOn 10, (10 : Nat) ∉ piece := by
  induction s with
  | nil =>
    intro piece hp
    simp [List.splitOn] at hp
    subst hp
    simp
  | cons a t ih =>
    intro piece hp
    simp only [List.splitOn, List.splitOnP_cons] at hp
    by_cases ha : a = 10
    · rw [if_pos (by simpa using ha)] at hp
      rcases List.mem_cons.mp hp with hp1 | hp1
      · subst hp1; simp
      · exact ih piece (by rw [List.splitOn]; exact hp1)
    · rw [if_neg (by simpa using ha)] at hp
      rcases hr : List.splitOnP (fun x => x == (10 : Nat)) t with _ | ⟨hd, tl⟩
      · exact absurd hr (List.splitOnP_ne_nil _ t)
      · rw [hr] at hp
        simp only [List.modifyHead] at hp
        rcases List.mem_cons.mp hp with hp1 | hp1
        · subst hp1
          intro hmem
          rcases List.mem_cons.mp hmem with h10 | h10
          · exact ha h10.symm
          · exact ih hd (by rw [List.splitOn, hr]; exact List.mem_cons_self hd tl) h10
        · exact ih piece (by rw [List.splitOn, hr]; exact List.mem_cons_of_mem hd hp1)

theorem splitOn_no_sep_single (d : List Nat) (h : (10 : Nat) ∉ d) :
    d.splitOn 10 = [d] := by
  unfold List.splitOn
  exact List.splitOnP_eq_single _ _ (fun x hx => by
    simp only [beq_iff_eq]
    intro hx10
    exact h (hx10 ▸ hx))

theorem splitOn_append_sep (xs r : List Nat) (h : (10 : Nat) ∉ xs) :
    (xs ++ 10 :: r).splitOn 10 = xs :: r.splitOn 10 := by
  unfold List.splitOn
  exact List.splitOnP_first _ xs (fun x hx => by
    simp only [beq_iff_eq]
    intro hx10
    exact h (hx10 ▸ hx)) 10 (by simp) r

/-- Splitting a newline-join back apart recovers the pieces when none of
them contains a newline. -/
theorem splitOn_interNl_append (d : List Nat) (hd10 : (10 : Nat) ∉ d) :
    ∀ ps : List (List Nat), ps ≠ [] → (∀ p ∈ ps, (10 : Nat) ∉ p) →
    (interNl ps ++ 10 :: d).splitOn 10 = ps ++ [d]
  | [], hne, _ => absurd rfl hne
  | [p], _, hp => by
    show ((p ++ 10 :: d).splitOn 10 = [p] ++ [d])
    rw [splitOn_append_sep p d (hp p (List.mem_cons_self p [])),
      splitOn_no_sep_single d hd10]
    rfl
  | p :: q :: ps, _, hp => by
    show ((p ++ 10 :: interNl (q :: ps)) ++ 10 :: d).splitOn 10 = (p :: q :: ps) ++ [d]
    rw [List.append_assoc, List.cons_append,
      splitOn_append_sep p _ (hp p (List.mem_cons_self p _))]
    have ih := splitOn_interNl_append d hd10 (q :: ps) (by simp)
      (fun x hx => hp x (List.mem_cons_of_mem p hx))
    rw [ih]
    rfl

/-- Every line produced by `rustLinesB` is free of newline bytes. -/
theorem rustLinesB_no_nl (s : List Nat) :
    ∀ piece ∈ rustLinesB s, (10 : Nat) ∉ piece := by
  intro piece hp
  by_cases hE : s.isEmpty
  · have : rustLinesB s = [] := by unfold rustLinesB; rw [hE]; rfl
    rw [this] at hp
    simp at hp
  · have hE2 : s.isEmpty = false := by simpa using hE
    have hne : s.splitOn 10 ≠ [] := List.splitOnP_ne_nil _ s
    obtain ⟨lastPc, hlast⟩ : ∃ lastPc, (s.splitOn 10).getLast? = some lastPc :=
      ⟨(s.splitOn 10).getLast hne, List.getLast?_eq_getLast _ hne⟩
    rw [rustLinesB_eq s hE2 lastPc hlast] at hp
    have hfrom_split : ∀ x, x ∈ (s.splitOn 10).dropLast.map stripCrB ∨ x = lastPc →
        (10 : Nat) ∉ x := by
      intro x hx
      rcases hx with hx | hx
      · rcases List.mem_map.mp hx with ⟨y, hy, hxy⟩
        have hy2 : (10 : Nat) ∉ y :=
          splitOn_pieces_no_sep s y (List.mem_of_mem_dropLast hy)
        subst hxy
        unfold stripCrB
        by_cases hc : y.getLast? = some 13
        · rw [if_pos hc]
          intro hmem
          exact hy2 (List.mem_of_mem_dropLast hmem)
        · rw [if_neg hc]; exact hy2
      · have hmem : lastPc ∈ s.splitOn 10 := by
          rcases List.mem_getLast?_eq_getLast (Option.mem_def.mpr hlast) with ⟨hne2, hEq⟩
          rw [hEq]
          exact List.getLast_mem hne2
        rw [hx]
        exact splitOn_pieces_no_sep s lastPc hmem
    by_cases hlp : lastPc.isEmpty
    · rw [if_pos hlp] at hp
      exact hfrom_split piece (Or.inl hp)
    · rw [if_neg hlp] at hp
      rcases List.mem_append.mp hp with hp1 | hp1
      · exact hfrom_split piece (Or.inl hp1)
      · exact hfrom_split piece (Or.inr (by simpa using hp1))

/-- Line count of the line-truncated output: the ten kept lines plus the
marker line. -/
theorem rustLinesB_line_trunc_count (ps : List (List Nat)) (hne : ps ≠ [])
    (hps : ∀ p ∈ ps, (10 : Nat) ∉ p) :
    (rustLinesB (interNl ps ++ dotsMarker)).length = ps.length + 1 := by
  have hdots : dotsMarker = 10 :: asciiBytes "    // ..." := by decide
  have hd10 : (10 : Nat) ∉ asciiBytes "    // ..." := by decide
  have hdE : (asciiBytes "    // ...").isEmpty = false := by decide
  have hsplit : (interNl ps ++ dotsMarker).splitOn 10 =
      ps ++ [asciiBytes "    // ..."] := by
    rw [hdots]
    exact splitOn_interNl_append _ hd10 ps hne hps
  have hE : (interNl ps ++ dotsMarker).isEmpty = false := by
    rw [hdots]
    cases interNl ps <;> rfl
  have hlast : ((interNl ps ++ dotsMarker).splitOn 10).getLast? =
      some (asciiBytes "    // ...") := by
    rw [hsplit]
    simp
  rw [rustLinesB_eq _ hE _ hlast, if_neg (by rw [hdE]; exact Bool.false_ne_true),
    hsplit]
  simp

/-! ### C2 lemmas: UTF-8 boundaries -/

/-- The encoding of a valid scalar starts with a non-continuation byte and
continues with continuation bytes only. -/
theorem utf8EncodeScalar_shape (c : Nat) (h : c < 0x110000) :
    ∃ b t, utf8EncodeScalar c = b :: t ∧ isUtf8Cont b = false ∧
      ∀ x ∈ t, isUtf8Cont x = true := by
  unfold utf8EncodeScalar
  by_cases h1 : c < 0x80
  · rw [if_pos h1]
    exact ⟨c, [], rfl, by simp [isUtf8Cont]; omega, by simp⟩
  · rw [if_neg h1]
    by_cases h2 : c < 0x800
    · rw [if_pos h2]
      refine ⟨0xC0 + c / 64, [0x80 + c % 64], rfl, by simp [isUtf8Cont], ?_⟩
      intro x hx
      simp only [List.mem_singleton] at hx
      subst hx
      simp only [isUtf8Cont, decide_eq_true_eq]
      have := Nat.mod_lt c (show 0 < 64 by norm_num)
      omega
    · rw [if_neg h2]
      by_cases h3 : c < 0x10000
      · rw [if_pos h3]
        refine ⟨0xE0 + c / 4096, [0x80 + (c / 64) % 64, 0x80 + c % 64], rfl,
          by simp [isUtf8Cont]; omega, ?_⟩
        intro x hx
        have hm1 := Nat.mod_lt (c / 64) (show 0 < 64 by norm_num)
        have hm2 := Nat.mod_lt c (show 0 < 64 by norm_num)
        rcases List.mem_cons.mp hx with hx1 | hx1
        · subst hx1; simp only [isUtf8Cont, decide_eq_true_eq]; omega
        · simp only [List.mem_singleton] at hx1
          subst hx1; simp only [isUtf8Cont, decide_eq_true_eq]; omega
      · rw [if_neg h3]
        refine ⟨0xF0 + c / 262144,
          [0x80 + (c / 4096) % 64, 0x80 + (c / 64) % 64, 0x80 + c % 64], rfl,
          by simp [isUtf8Cont]; omega, ?_⟩
        intro x hx
        have hm1 := Nat.mod_lt (c / 4096) (show 0 < 64 by norm_num)
        have hm2 := Nat.mod_lt (c / 64) (show 0 < 64 by norm_num)
        have hm3 := Nat.mod_lt c (show 0 < 64 by norm_num)
        rcases List.mem_cons.mp hx with hx1 | hx1
        · subst hx1; simp only [isUtf8Cont, decide_eq_true_eq]; omega
        rcases List.mem_cons.mp hx1 with hx2 | hx2
        · subst hx2; simp only [isUtf8Cont, decide_eq_true_eq]; omega
        · simp only [List.mem_singleton] at hx2
          subst hx2; simp only [isUtf8Cont, decide_eq_true_eq]; omega

theorem utf8Encode_cons (c : Nat) (cs : List Nat) :
    utf8Encode (c :: cs) = utf8EncodeScalar c ++ utf8Encode cs := by
  simp [utf8Encode]

/-- A char boundary of a valid UTF-8 byte string cuts it into the encoding
of a scalar prefix and the rest. -/
theorem boundary_decomp : ∀ (cs : List Nat), (∀ c ∈ cs, c < 0x110000) →
    ∀ i, isCharBoundaryB (utf8Encode cs) i = true →
    i ≤ (utf8Encode cs).length →
    ∃ pre suf, cs = pre ++ suf ∧ (utf8Encode cs).take i = utf8Encode pre
  | [], _, i, _, hle => by
    refine ⟨[], [], rfl, ?_⟩
    have : i = 0 := by
      simp only [utf8Encode, List.map_nil, List.flatten_nil, List.length_nil] at hle
      omega
    subst this
    rfl
  | c :: cs, hval, i, hb, hle => by
    obtain ⟨b, t, henc, hbc, hct⟩ :=
      utf8EncodeScalar_shape c (hval c (List.mem_cons_self c cs))
    have hk1 : 1 ≤ (utf8EncodeScalar c).length := by rw [henc]; simp
    have hlen : (utf8Encode (c :: cs)).length =
        (utf8EncodeScalar c).length + (utf8Encode cs).length := by
      rw [utf8Encode_cons]; simp
    by_cases hi0 : i = 0
    · subst hi0
      exact ⟨[], c :: cs, rfl, rfl⟩
    · by_cases hik : i < (utf8EncodeScalar c).length
      · exfalso
        have hilen : i < (utf8Encode (c :: cs)).length := by omega
        have hbyte : (utf8Encode (c :: cs)).getD i 0 ∈ t := by
          rw [utf8Encode_cons]
          have : ((utf8EncodeScalar c ++ utf8Encode cs))[i]? =
              (utf8EncodeScalar c)[i]? := by
            rw [List.getElem?_append, if_pos hik]
          rw [List.getD_eq_getElem?_getD, this, henc]
          have hit : i - 1 < t.length := by
            rw [henc] at hik
            simp only [List.length_cons] at hik
            omega
          rw [show (b :: t)[i]? = t[i - 1]? by
            cases i with
            | zero => exact absurd rfl hi0
            | succ j => simp]
          rw [List.getElem?_eq_getElem hit]
          exact List.getElem_mem _
        have hcont := hct _ hbyte
        unfold isCharBoundaryB at hb
        simp only [Bool.or_eq_true, Bool.and_eq_true, decide_eq_true_eq,
          Bool.not_eq_true'] at hb
        rcases hb with (hb | hb) | hb
        · exact hi0 hb
        · omega
        · rw [hb.2] at hcont; exact Bool.noConfusion hcont
      · have hk := Nat.le_of_not_lt hik
        set k := (utf8EncodeScalar c).length with hkdef
        have hgoal_split : ∀ j, i = k + j →
            isCharBoundaryB (utf8Encode cs) j = true →
            j ≤ (utf8Encode cs).length →
            ∃ pre suf, c :: cs = pre ++ suf ∧
              (utf8Encode (c :: cs)).take i = utf8Encode pre := by
          intro j hij hjb hjle
          obtain ⟨pre, suf, hcs, htake⟩ := boundary_decomp cs
            (fun x hx => hval x (List.mem_cons_of_mem c hx)) j hjb hjle
          refine ⟨c :: pre, suf, by rw [hcs]; simp, ?_⟩
          rw [utf8Encode_cons, hij, List.take_append, htake, utf8Encode_cons]
        have hjle : i - k ≤ (utf8Encode cs).length := by omega
        refine hgoal_split (i - k) (by omega) ?_ hjle
        unfold isCharBoundaryB at hb ⊢
        simp only [Bool.or_eq_true, Bool.and_eq_true, decide_eq_true_eq,
          Bool.not_eq_true'] at hb ⊢
        rcases hb with (hb | hb) | hb
        · exact absurd hb hi0
        · exact Or.inl (Or.inr (by omega))
        · by_cases hieq : i - k = 0
          · exact Or.inl (Or.inl hieq)
          · refine Or.inr ⟨by omega, ?_⟩
            have : (utf8Encode (c :: cs)).getD i 0 = (utf8Encode cs).getD (i - k) 0 := by
              rw [utf8Encode_cons, List.getD_eq_getElem?_getD,
                List.getElem?_append_right hk, List.getD_eq_getElem?_getD]
            rw [← this]
            exact hb.2
  termination_by cs => cs.length

theorem backToBoundary_le (s : List Nat) : ∀ e, backToBoundary s e ≤ e := by
  intro e
  induction e with
  | zero => exact Nat.le_refl _
  | succ e ih =>
    unfold backToBoundary
    by_cases h : isCharBoundaryB s (e + 1)
    · rw [if_pos h]
    · rw [if_neg h]; omega

theorem backToBoundary_boundary (s : List Nat) :
    ∀ e, isCharBoundaryB s (backToBoundary s e) = true := by
  intro e
  induction e with
  | zero => simp [backToBoundary, isCharBoundaryB]
  | succ e ih =>
    unfold backToBoundary
    by_cases h : isCharBoundaryB s (e + 1)
    · rw [if_pos h]; exact h
    · rw [if_neg h]; exact ih

theorem byteBound_len (raw : List Nat) :
    (byteBound raw).length ≤ MAX_SNIPPET_BYTES + truncMarker.length := by
  unfold byteBound
  by_cases h : MAX_SNIPPET_BYTES < raw.length
  · rw [if_pos h]
    have h1 : (raw.take (backToBoundary raw MAX_SNIPPET_BYTES)).length ≤
        MAX_SNIPPET_BYTES := by
      rw [List.length_take]
      have := backToBoundary_le raw MAX_SNIPPET_BYTES
      omega
    rw [List.length_append]
    omega
  · rw [if_neg h]
    have : truncMarker.length = 23 := by decide
    omega

/-! ### C2 theorems -/

/-- C2 (amended): for every valid UTF-8 snippet, `bounded_snippet` keeps at
most 10 content lines and at most 2048 content bytes, appending a truncation
marker after each cut, so the stored snippet has at most 11 lines and at
most `2048 + 23 + 11` bytes, contains the marker text `// ...` whenever it
differs from the input, and a byte cut always lands on a UTF-8 character
boundary — the kept bytes are the encoding of a scalar-sequence prefix. -/
theorem bounded_snippet_amended (cs : List Nat) (hval : ∀ c ∈ cs, c < 0x110000) :
    (rustLinesB (boundedSnippet (utf8Encode cs))).length ≤ MAX_SNIPPET_LINES + 1 ∧
    (boundedSnippet (utf8Encode cs)).length ≤
      MAX_SNIPPET_BYTES + truncMarker.length + dotsMarker.length ∧
    (boundedSnippet (utf8Encode cs) ≠ utf8Encode cs →
      List.IsInfix dotsCore (boundedSnippet (utf8Encode cs))) ∧
    (MAX_SNIPPET_BYTES < (utf8Encode cs).length →
      ∃ pre suf, cs = pre ++ suf ∧
        byteBound (utf8Encode cs) = utf8Encode pre ++ truncMarker ∧
        (utf8Encode pre).length ≤ MAX_SNIPPET_BYTES) := by
  have hdotsTrunc : List.IsInfix dotsCore truncMarker := by decide
  have hdotsDots : List.IsInfix dotsCore dotsMarker := by decide
  have hLN : MAX_SNIPPET_LINES = 10 := rfl
  have hBN : MAX_SNIPPET_BYTES = 2048 := rfl
  have hTM : truncMarker.length = 23 := by decide
  have hDM : dotsMarker.length = 11 := by decide
  have hD : MAX_SNIPPET_BYTES < (utf8Encode cs).length →
      ∃ pre suf, cs = pre ++ suf ∧
        byteBound (utf8Encode cs) = utf8Encode pre ++ truncMarker ∧
        (utf8Encode pre).length ≤ MAX_SNIPPET_BYTES := by
    intro hbig
    have hple := backToBoundary_le (utf8Encode cs) MAX_SNIPPET_BYTES
    have hb := backToBoundary_boundary (utf8Encode cs) MAX_SNIPPET_BYTES
    obtain ⟨pre, suf, hcs, htake⟩ := boundary_decomp cs hval
      (backToBoundary (utf8Encode cs) MAX_SNIPPET_BYTES) hb (by omega)
    refine ⟨pre, suf, hcs, ?_, ?_⟩
    · unfold byteBound
      rw [if_pos hbig, htake]
    · rw [← htake, List.length_take]
      omega
  have hBBne : byteBound (utf8Encode cs) ≠ utf8Encode cs →
      List.IsSuffix truncMarker (byteBound (utf8Encode cs)) := by
    intro hne
    unfold byteBound at hne ⊢
    by_cases h : MAX_SNIPPET_BYTES < (utf8Encode cs).length
    · rw [if_pos h]
      exact List.suffix_append _ _
    · rw [if_neg h] at hne
      exact absurd rfl hne
  by_cases hL : (rustLinesB (byteBound (utf8Encode cs))).length ≤ MAX_SNIPPET_LINES
  · have hout : boundedSnippet (utf8Encode cs) = byteBound (utf8Encode cs) := by
      unfold boundedSnippet
      rw [if_pos hL]
    refine ⟨?_, ?_, ?_, hD⟩
    · rw [hout]; omega
    · rw [hout]
      have := byteBound_len (utf8Encode cs)
      omega
    · intro hne
      rw [hout] at hne ⊢
      exact hdotsTrunc.trans (hBBne hne).isInfix
  · have hout : boundedSnippet (utf8Encode cs) =
        interNl ((rustLinesB (byteBound (utf8Encode cs))).take MAX_SNIPPET_LINES) ++
          dotsMarker := by
      unfold boundedSnippet
      rw [if_neg hL]
    refine ⟨?_, ?_, ?_, hD⟩
    · rw [hout]
      have hcount := rustLinesB_line_trunc_count
        ((rustLinesB (byteBound (utf8Encode cs))).take MAX_SNIPPET_LINES)
        (by
          intro hnil
          have := congrArg List.length hnil
          rw [List.length_take] at this
          simp only [List.length_nil] at this
          omega)
        (fun p hp => rustLinesB_no_nl (byteBound (utf8Encode cs)) p
          (List.mem_of_mem_take hp))
      rw [hcount, List.length_take]
      omega
    · rw [hout, List.length_append]
      have h1 := interNl_rustLinesB_le (byteBound (utf8Encode cs)) MAX_SNIPPET_LINES
      have h2 := byteBound_len (utf8Encode cs)
      omega
    · intro _
      rw [hout]
      exact hdotsDots.trans (List.suffix_append _ _).isInfix

/-- C2 counterexample: an eleven-line snippet is stored with 11 lines
(10 kept lines plus the marker line), and a 2049-byte single-line snippet is
stored with 2071 bytes (2048 kept bytes plus the 23-byte marker) — both
exceed the claimed bounds of 10 lines and 2048 bytes. -/
theorem bounded_snippet_bounds_cex :
    (rustLinesB (boundedSnippet elevenLines)).length = 11 ∧
      ¬(11 ≤ MAX_SNIPPET_LINES) ∧
      (boundedSnippet (List.replicate 2049 97)).length = 2071 ∧
      ¬(2071 ≤ MAX_SNIPPET_BYTES) := by
  refine ⟨by decide, by decide, ?_, by decide⟩
  have hb2048 : isCharBoundaryB (List.replicate 2049 97) 2048 = true := by
    unfold isCharBoundaryB
    have h1 : (List.replicate 2049 (97 : Nat)).getD 2048 0 = 97 := by
      rw [List.getD_eq_getElem?_getD, List.getElem?_replicate]
      rfl
    rw [h1, List.length_replicate]
    simp [isUtf8Cont]
  have hback : backToBoundary (List.replicate 2049 97) MAX_SNIPPET_BYTES = 2048 := by
    rw [show MAX_SNIPPET_BYTES = 2047 + 1 from rfl]
    unfold backToBoundary
    rw [if_pos (show isCharBoundaryB (List.replicate 2049 97) (2047 + 1) = true
      from hb2048)]
  have hbb : byteBound (List.replicate 2049 97) =
      List.replicate 2048 97 ++ truncMarker := by
    unfold byteBound
    rw [if_pos (show MAX_SNIPPET_BYTES < (List.replicate 2049 (97 : Nat)).length by
        rw [List.length_replicate]; decide),
      hback, List.take_replicate]
    rfl
  have hstrip : stripCrB (List.replicate 2048 97) = List.replicate 2048 97 := by
    unfold stripCrB
    have h2 : (List.replicate 2048 (97 : Nat)).getLast? = some 97 := by
      rw [show (2048 : Nat) = 2047 + 1 from rfl, List.replicate_succ',
        List.getLast?_concat]
    rw [h2, if_neg (by decide)]
  have hlines : rustLinesB (byteBound (List.replicate 2049 97)) =
      [List.replicate 2048 97, asciiBytes "    // ... (truncated)"] := by
    rw [hbb]
    have htm : truncMarker = 10 :: asciiBytes "    // ... (truncated)" := by decide
    have hno10 : (10 : Nat) ∉ List.replicate 2048 (97 : Nat) := by
      intro h
      have := List.eq_of_mem_replicate h
      omega
    have hsplit : (List.replicate 2048 97 ++ truncMarker).splitOn 10 =
        [List.replicate 2048 (97 : Nat), asciiBytes "    // ... (truncated)"] := by
      rw [htm, splitOn_append_sep _ _ hno10,
        splitOn_no_sep_single _ (by decide)]
    have hE : (List.replicate 2048 97 ++ truncMarker).isEmpty = false := by
      rw [show (2048 : Nat) = 2047 + 1 from rfl, List.replicate_succ]
      rfl
    rw [rustLinesB_eq _ hE (asciiBytes "    // ... (truncated)")
      (by rw [hsplit]; rfl), if_neg (by decide), hsplit]
    simp only [List.dropLast, List.map, hstrip]
    rfl
  have hout : boundedSnippet (List.replicate 2049 97) =
      byteBound (List.replicate 2049 97) := by
    simp only [boundedSnippet, hlines]
    rw [if_pos (by decide)]
  rw [hout, hbb, List.length_append, List.length_replicate]
  rfl

/-- C2 witness: the amended snippet theorem applied to a concrete two-line
ASCII snippet. -/
theorem bounded_snippet_amended_witness :
    (∀ c ∈ [102, 110, 10, 102, 110], c < 0x110000) ∧
      (rustLinesB (boundedSnippet (utf8Encode [102, 110, 10, 102, 110]))).length ≤
        MAX_SNIPPET_LINES + 1 := by
  refine ⟨by decide, ?_⟩
  exact (bounded_snippet_amended [102, 110, 10, 102, 110] (by decide)).1

/-! ### Extractor scope lemmas -/

/-- Calls of an extraction concatenation. -/
theorem Extraction.app_calls (a b : Extraction) :
    (a.app b).calls = a.calls ++ b.calls := rfl

/-- Symbols of an extraction concatenation. -/
theorem Extraction.app_symbols (a b : Extraction) :
    (a.app b).symbols = a.symbols ++ b.symbols := rfl

/-- Head equation of `extractNode`. -/
theorem extractNode_mk (lang : SupportedLanguage) (k : String) (sr er : Nat)
    (tx : String) (ft : Option String) (cs : List TSNode) (s : Option String) :
    extractNode lang (.mk k sr er tx ft cs) s =
      (extractOwn lang (.mk k sr er tx ft cs) s).app
        (extractList lang cs ((newScopeOf lang (.mk k sr er tx ft cs)).or s)) := rfl

/-- A call of a child-list extraction comes from one of the children. -/
theorem extractList_calls_mem {lang : SupportedLanguage} :
    ∀ {cs : List TSNode} {s : Option String} {c : ExtractedCall},
      c ∈ (extractList lang cs s).calls →
      ∃ ch ∈ cs, c ∈ (extractNode lang ch s).calls := by
  intro cs
  induction cs with
  | nil => intro s c hc; exact absurd hc (List.not_mem_nil c)
  | cons ch cs ih =>
    intro s c hc
    have he : (extractList lang (ch :: cs) s).calls =
        (extractNode lang ch s).calls ++ (extractList lang cs s).calls := rfl
    rw [he] at hc
    rcases List.mem_append.mp hc with h | h
    · exact ⟨ch, List.mem_cons_self _ _, h⟩
    · obtain ⟨ch2, hm, hc2⟩ := ih h
      exact ⟨ch2, List.mem_cons_of_mem _ hm, hc2⟩

/-- A symbol of a child-list extraction comes from one of the children. -/
theorem extractList_symbols_mem {lang : SupportedLanguage} :
    ∀ {cs : List TSNode} {s : Option String} {sym : ExtractedSymbol},
      sym ∈ (extractList lang cs s).symbols →
      ∃ ch ∈ cs, sym ∈ (extractNode lang ch s).symbols := by
  intro cs
  induction cs with
  | nil => intro s sym hs; exact absurd hs (List.not_mem_nil sym)
  | cons ch cs ih =>
    intro s sym hs
    have he : (extractList lang (ch :: cs) s).symbols =
        (extractNode lang ch s).symbols ++ (extractList lang cs s).symbols := rfl
    rw [he] at hs
    rcases List.mem_append.mp hs with h | h
    · exact ⟨ch, List.mem_cons_self _ _, h⟩
    · obtain ⟨ch2, hm, hs2⟩ := ih h
      exact ⟨ch2, List.mem_cons_of_mem _ hm, hs2⟩

/-- Calls of the Rust per-node extractor: the current scope is the caller
and the line is the node's first line. -/
theorem extractRustNode_calls {n : TSNode} {s : Option String} {c : ExtractedCall}
    (hc : c ∈ (extractRustNode n s).calls) :
    s = some c.caller ∧ c.line = n.startRow + 1 := by
  unfold extractRustNode at hc
  repeat' split at hc
  all_goals simp_all [Extraction.empty, mkSym]

/-- Calls of the Python per-node extractor. -/
theorem extractPythonNode_calls {n : TSNode} {s : Option String} {c : ExtractedCall}
    (hc : c ∈ (extractPythonNode n s).calls) :
    s = some c.caller ∧ c.line = n.startRow + 1 := by
  unfold extractPythonNode at hc
  repeat' split at hc
  all_goals simp_all [Extraction.empty, mkSym]

/-- Calls of the JavaScript per-node extractor. -/
theorem extractJsNode_calls {n : TSNode} {s : Option String} {c : ExtractedCall}
    (hc : c ∈ (extractJsNode n s).calls) :
    s = some c.caller ∧ c.line = n.startRow + 1 := by
  unfold extractJsNode at hc
  repeat' split at hc
  all_goals simp_all [Extraction.empty, mkSym]

/-- The TypeScript-specific additions emit no calls. -/
theorem extractTsExtra_calls {n : TSNode} {c : ExtractedCall}
    (hc : c ∈ (extractTsExtra n).calls) : False := by
  unfold extractTsExtra at hc
  repeat' split at hc
  all_goals simp_all [Extraction.empty, mkSym]

/-- Calls of the TypeScript per-node extractor. -/
theorem extractTsNode_calls {n : TSNode} {s : Option String} {c : ExtractedCall}
    (hc : c ∈ (extractTsNode n s).calls) :
    s = some c.caller ∧ c.line = n.startRow + 1 := by
  unfold extractTsNode at hc
  rw [Extraction.app_calls] at hc
  rcases List.mem_append.mp hc with h | h
  · exact extractJsNode_calls h
  · exact absurd h (fun h => extractTsExtra_calls h)

/-- Calls of the generic per-node extractor. -/
theorem extractGenericNode_calls {n : TSNode} {s : Option String}
    {fk ik ck : List String} {c : ExtractedCall}
    (hc : c ∈ (extractGenericNode n s fk ik ck).calls) :
    s = some c.caller ∧ c.line = n.startRow + 1 := by
  unfold extractGenericNode at hc
  repeat' split at hc
  all_goals simp_all [Extraction.empty, mkSym]

/-- Calls of the per-node dispatch, any language. -/
theorem extractOwn_calls {lang : SupportedLanguage} {n : TSNode}
    {s : Option String} {c : ExtractedCall}
    (hc : c ∈ (extractOwn lang n s).calls) :
    s = some c.caller ∧ c.line = n.startRow + 1 := by
  cases lang <;> simp only [extractOwn] at hc
  case rust => exact extractRustNode_calls hc
  case python => exact extractPythonNode_calls hc
  case javascript => exact extractJsNode_calls hc
  case tsx => exact extractJsNode_calls hc
  case typescript => exact extractTsNode_calls hc
  all_goals exact extractGenericNode_calls hc

/-- Symbols of the Rust per-node extractor: lines are the node's range,
and a function or method symbol carries the current scope as parent with
kind `method` exactly when the scope is set. -/
theorem extractRustNode_symbols {n : TSNode} {s : Option String}
    {sym : ExtractedSymbol} (hs : sym ∈ (extractRustNode n s).symbols) :
    sym.line_start = n.startRow + 1 ∧ sym.line_end = n.endRow + 1 ∧
      ((sym.kind = .function ∨ sym.kind = .method) →
        sym.parent = s ∧ (sym.kind = .method ↔ s ≠ none)) := by
  unfold extractRustNode at hs
  repeat' split at hs
  all_goals simp_all [Extraction.empty, mkSym]
  all_goals cases s <;> simp_all

/-- Size of a tree node strictly dominates the size of any subtree in its
child list. -/
theorem sizeOf_child_lt (c : TSNode) (k : String) (sr er : Nat) (tx : String)
    (ft : Option String) (cs : List TSNode) (hm : c ∈ cs) :
    sizeOf c < sizeOf (TSNode.mk k sr er tx ft cs) := by
  have h1 : sizeOf c < sizeOf cs := List.sizeOf_lt_of_mem hm
  have h2 : sizeOf cs < sizeOf (TSNode.mk k sr er tx ft cs) := by
    simp [TSNode.mk.sizeOf_spec]
  omega

/-- Elements of a list passing `wfRangesList` pass `wfRangesB`. -/
theorem wfRangesList_mem :
    ∀ {cs : List TSNode}, wfRangesList cs = true →
      ∀ c ∈ cs, wfRangesB c = true := by
  intro cs
  induction cs with
  | nil => intro _ c hc; exact absurd hc (List.not_mem_nil c)
  | cons ch cs ih =>
    intro hl c hc
    rw [wfRangesList, Bool.and_eq_true] at hl
    rcases List.mem_cons.mp hc with h | h
    · exact h ▸ hl.1
    · exact ih hl.2 c h

/-- `wfRangesB` is sound for `WFRanges`, by strong induction on size. -/
theorem wfRangesB_sound_aux :
    ∀ (N : Nat) (n : TSNode), sizeOf n ≤ N → wfRangesB n = true → WFRanges n := by
  intro N
  induction N with
  | zero =>
    intro n hsz
    exfalso
    obtain ⟨k, sr, er, tx, ft, cs⟩ := n
    simp [TSNode.mk.sizeOf_spec] at hsz
  | succ N ih =>
    intro n hsz hb
    obtain ⟨k, sr, er, tx, ft, cs⟩ := n
    rw [wfRangesB, Bool.and_eq_true, Bool.and_eq_true] at hb
    obtain ⟨⟨hle, hall⟩, hlist⟩ := hb
    refine WFRanges.mk (by simpa using hle) ?_ ?_
    · intro c hc
      have := List.all_eq_true.mp hall c hc
      rw [Bool.and_eq_true] at this
      exact ⟨by simpa using this.1, by simpa using this.2⟩
    · intro c hc
      have hszc : sizeOf c ≤ N := by
        have := sizeOf_child_lt c k sr er tx ft cs hc
        omega
      exact ih c hszc (wfRangesList_mem hlist c hc)

/-- `wfRangesB` is sound for `WFRanges`. -/
theorem wfRangesB_sound (n : TSNode) (hb : wfRangesB n = true) : WFRanges n :=
  wfRangesB_sound_aux (sizeOf n) n le_rfl hb

/-- Master lemma for calls: a call extracted below `n` under scope `s` lies
within the rows of `n`, and its caller is either the incoming scope or the
scope opened by some node below `n` whose rows contain the call. -/
theorem extractNode_calls_scoped :
    ∀ (N : Nat) (lang : SupportedLanguage) (n : TSNode), sizeOf n ≤ N →
      WFRanges n → ∀ (s : Option String) (c : ExtractedCall),
      c ∈ (extractNode lang n s).calls →
      (n.startRow + 1 ≤ c.line ∧ c.line ≤ n.endRow + 1) ∧
        (s = some c.caller ∨
          ∃ a, SubNode a n ∧ newScopeOf lang a = some c.caller ∧
            a.startRow + 1 ≤ c.line ∧ c.line ≤ a.endRow + 1) := by
  intro N
  induction N with
  | zero =>
    intro lang n hsz
    exfalso
    obtain ⟨k, sr, er, tx, ft, cs⟩ := n
    simp [TSNode.mk.sizeOf_spec] at hsz
  | succ N ih =>
    intro lang n hsz hwf s c hc
    obtain ⟨k, sr, er, tx, ft, cs⟩ := n
    cases hwf with
    | mk hle hchr hchw =>
    rw [extractNode_mk, Extraction.app_calls] at hc
    rcases List.mem_append.mp hc with h | h
    · obtain ⟨hs, hline⟩ := extractOwn_calls h
      simp only [TSNode.startRow] at hline
      refine ⟨⟨?_, ?_⟩, Or.inl hs⟩
      · simp [TSNode.startRow, hline]
      · simp only [TSNode.endRow]
        omega
    · obtain ⟨ch, hchm, hch⟩ := extractList_calls_mem h
      have hszc : sizeOf ch ≤ N := by
        have := sizeOf_child_lt ch k sr er tx ft cs hchm
        omega
      obtain ⟨⟨hb1, hb2⟩, hdisj⟩ := ih lang ch hszc (hchw ch hchm) _ c hch
      have hr := hchr ch hchm
      have hbounds : sr + 1 ≤ c.line ∧ c.line ≤ er + 1 := by omega
      refine ⟨by simpa [TSNode.startRow, TSNode.endRow] using hbounds, ?_⟩
      rcases hdisj with hsc | ⟨a, hsub, hscope, ha1, ha2⟩
      · cases hns : newScopeOf lang (.mk k sr er tx ft cs) with
        | none =>
          rw [hns] at hsc
          simp only [Option.or] at hsc
          exact Or.inl hsc
        | some nm =>
          rw [hns] at hsc
          simp only [Option.or] at hsc
          refine Or.inr ⟨.mk k sr er tx ft cs, SubNode.refl _, ?_, ?_, ?_⟩
          · rw [hns, hsc]
          · simpa [TSNode.startRow] using hbounds.1
          · simpa [TSNode.endRow] using hbounds.2
      · exact Or.inr ⟨a, SubNode.child hchm hsub, hscope, ha1, ha2⟩

/-- Master lemma for Rust symbols: a function or method symbol extracted
below `n` under scope `s` lies within the rows of `n`, is a method exactly
when its parent is set, and its parent is the incoming scope or the scope
opened by some node below `n` whose rows contain the symbol. -/
theorem extractNode_rust_symbols_scoped :
    ∀ (N : Nat) (n : TSNode), sizeOf n ≤ N → WFRanges n →
      ∀ (s : Option String) (sym : ExtractedSymbol),
      sym ∈ (extractNode .rust n s).symbols →
      (sym.kind = .function ∨ sym.kind = .method) →
      (n.startRow + 1 ≤ sym.line_start ∧ sym.line_end ≤ n.endRow + 1) ∧
        (sym.kind = .method ↔ sym.parent ≠ none) ∧
        (sym.parent = s ∨
          ∃ a, SubNode a n ∧ newScopeOf .rust a = sym.parent ∧
            a.startRow + 1 ≤ sym.line_start ∧ sym.line_end ≤ a.endRow + 1) := by
  intro N
  induction N with
  | zero =>
    intro n hsz
    exfalso
    obtain ⟨k, sr, er, tx, ft, cs⟩ := n
    simp [TSNode.mk.sizeOf_spec] at hsz
  | succ N ih =>
    intro n hsz hwf s sym hs hk
    obtain ⟨k, sr, er, tx, ft, cs⟩ := n
    cases hwf with
    | mk hle hchr hchw =>
    rw [extractNode_mk, Extraction.app_symbols] at hs
    rcases List.mem_append.mp hs with h | h
    · obtain ⟨hl1, hl2, hfm⟩ :=
        extractRustNode_symbols (by simpa [extractOwn] using h)
      obtain ⟨hpar, hiff⟩ := hfm hk
      simp only [TSNode.startRow] at hl1
      simp only [TSNode.endRow] at hl2
      refine ⟨⟨?_, ?_⟩, ?_, Or.inl hpar⟩
      · simp [TSNode.startRow, hl1]
      · simp only [TSNode.endRow]
        omega
      · rw [hpar]
        exact hiff
    · obtain ⟨ch, hchm, hch⟩ := extractList_symbols_mem h
      have hszc : sizeOf ch ≤ N := by
        have := sizeOf_child_lt ch k sr er tx ft cs hchm
        omega
      obtain ⟨⟨hb1, hb2⟩, hiff, hdisj⟩ := ih ch hszc (hchw ch hchm) _ sym hch hk
      have hr := hchr ch hchm
      have hbounds : sr + 1 ≤ sym.line_start ∧ sym.line_end ≤ er + 1 := by omega
      refine ⟨by simpa [TSNode.startRow, TSNode.endRow] using hbounds, hiff, ?_⟩
      rcases hdisj with hsc | ⟨a, hsub, hscope, ha1, ha2⟩
      · cases hns : newScopeOf .rust (.mk k sr er tx ft cs) with
        | none =>
          rw [hns] at hsc
          simp only [Option.or] at hsc
          exact Or.inl hsc
        | some nm =>
          rw [hns] at hsc
          simp only [Option.or] at hsc
          refine Or.inr ⟨.mk k sr er tx ft cs, SubNode.refl _, ?_, ?_, ?_⟩
          · rw [hns, hsc]
          · simpa [TSNode.startRow] using hbounds.1
          · simpa [TSNode.endRow] using hbounds.2
      · exact Or.inr ⟨a, SubNode.child hchm hsub, hscope, ha1, ha2⟩

/-- C7: for every parse tree with well-formed row ranges, in every
language, every extracted call's caller is the scope name opened by some
node of the tree whose row range contains the call line; and if no node of
the tree opens a scope, no call record is produced at all. -/
theorem extract_calls_caller_scoped (lang : SupportedLanguage) (root : TSNode)
    (hwf : WFRanges root) :
    (∀ c ∈ (extractFile lang root).calls,
      ∃ a, SubNode a root ∧ newScopeOf lang a = some c.caller ∧
        a.startRow + 1 ≤ c.line ∧ c.line ≤ a.endRow + 1) ∧
    ((∀ a, SubNode a root → newScopeOf lang a = none) →
      (extractFile lang root).calls = []) := by
  constructor
  · intro c hc
    have hm := extractNode_calls_scoped (sizeOf root) lang root le_rfl hwf none c hc
    rcases hm.2 with h | h
    · exact absurd h (by simp)
    · exact h
  · intro hnone
    cases hcalls : (extractFile lang root).calls with
    | nil => rfl
    | cons c cs =>
      exfalso
      have hc : c ∈ (extractFile lang root).calls := by
        rw [hcalls]; exact List.mem_cons_self _ _
      have hm := extractNode_calls_scoped (sizeOf root) lang root le_rfl hwf none c hc
      rcases hm.2 with h | ⟨a, hsub, hscope, _, _⟩
      · exact absurd h (by simp)
      · rw [hnone a hsub] at hscope
        exact absurd hscope (by simp)

/-- C7 witness: the scoped-caller theorem applied to a concrete Rust tree
in which `fn new` inside `impl Foo` calls `Self::helper`. -/
theorem extract_calls_caller_scoped_witness :
    WFRanges c7Tree ∧
      ((∀ c ∈ (extractFile .rust c7Tree).calls,
        ∃ a, SubNode a c7Tree ∧ newScopeOf .rust a = some c.caller ∧
          a.startRow + 1 ≤ c.line ∧ c.line ≤ a.endRow + 1) ∧
      ((∀ a, SubNode a c7Tree → newScopeOf .rust a = none) →
        (extractFile .rust c7Tree).calls = [])) :=
  ⟨wfRangesB_sound c7Tree (by decide),
    extract_calls_caller_scoped .rust c7Tree (wfRangesB_sound c7Tree (by decide))⟩

/-- C8 counterexample: in a Rust tree containing no impl block at all, a
function item nested inside another function item is extracted with kind
`method` (its parent is the enclosing function), refuting "Method iff
inside an impl block". -/
theorem rust_method_without_impl_cex :
    (allNodes c8Tree).countP (fun m => m.kind == "impl_item") = 0 ∧
      (extractFile .rust c8Tree).symbols.map
        (fun sym => (sym.name, sym.kind, sym.parent)) =
      [("outer", .function, none), ("inner", .method, some "outer")] := by
  decide

/-- C8 (amended): for Rust trees with well-formed row ranges, an extracted
function or method symbol has kind `function` exactly when it has no
parent scope; a `method` symbol's parent is the scope name opened by some
node of the tree (a function, struct, enum, trait or impl item) whose row
range contains the symbol. -/
theorem rust_function_kind_iff_scope (root : TSNode) (hwf : WFRanges root) :
    ∀ sym ∈ (extractFile .rust root).symbols,
      (sym.kind = .function → sym.parent = none) ∧
      (sym.kind = .method → ∃ p, sym.parent = some p ∧
        ∃ a, SubNode a root ∧ newScopeOf .rust a = some p ∧
          a.startRow + 1 ≤ sym.line_start ∧ sym.line_end ≤ a.endRow + 1) := by
  intro sym hmem
  constructor
  · intro hf
    have hm := extractNode_rust_symbols_scoped (sizeOf root) root le_rfl hwf
      none sym hmem (Or.inl hf)
    by_contra hne
    have hmk := hm.2.1.mpr hne
    rw [hf] at hmk
    exact absurd hmk (by decide)
  · intro hmth
    have hm := extractNode_rust_symbols_scoped (sizeOf root) root le_rfl hwf
      none sym hmem (Or.inr hmth)
    have hne : sym.parent ≠ none := hm.2.1.mp hmth
    rcases hm.2.2 with hp | ⟨a, hsub, hscope, hb1, hb2⟩
    · exact absurd hp hne
    · cases hpar : sym.parent with
      | none => exact absurd hpar hne
      | some p =>
        rw [hpar] at hscope
        exact ⟨p, rfl, a, hsub, hscope, hb1, hb2⟩

/-- C8 witness: the amended scope-kind theorem applied to the concrete
nested-function tree. -/
theorem rust_function_kind_iff_scope_witness :
    WFRanges c8Tree ∧
      ∀ sym ∈ (extractFile .rust c8Tree).symbols,
        (sym.kind = .function → sym.parent = none) ∧
        (sym.kind = .method → ∃ p, sym.parent = some p ∧
          ∃ a, SubNode a c8Tree ∧ newScopeOf .rust a = some p ∧
            a.startRow + 1 ≤ sym.line_start ∧ sym.line_end ≤ a.endRow + 1) :=
  ⟨wfRangesB_sound c8Tree (by decide),
    rust_function_kind_iff_scope c8Tree (wfRangesB_sound c8Tree (by decide))⟩

end Anchor
